import Mathlib

/-!
Verification of the jpegid pipeline (shallow embedding).

This file embeds the substantive logic of `main.go` of the `jpegid`
repository and proves/refutes the frozen behavioural claims about it:

* the timestamp parsing and formatting done with Go's `time` package
  (layouts `2006:01:02 15:04:05.000-07:00`, `2006:01:02 15:04:05-07:00`
  and `2006-01-02T150405.000-0700`),
* Go's `path/filepath` functions (`Clean`, `Dir`, `Base`, `Ext`, `Join`)
  for the Unix separator `/`,
* the worker-loop body of `JpegIDCmd.Run` (response decoding, creation-time
  resolution, dry-run reporting, rename/replace/skip decisions),
* the directory walk (`fs.WalkDir` with the producer callback),
* `compileRegexp`'s pattern rewriting.

External effects (the exiftool subprocess, the filesystem) are modelled as
explicit inputs: the decoded response a session yields for one task, and a
stat/rename oracle.  Machine integers do not overflow in any of the embedded
code paths (all arithmetic is on small calendar fields), so `Nat`/`Int` are
used directly.
-/

namespace Jpegid

/-! ## Go `time` layouts used by `JpegIDCmd.Run` -/

/-- A wall-clock time with a fixed numeric zone offset, the shape produced by
`time.ParseInLocation` with a `-07:00` layout: calendar fields plus the zone
offset in minutes. -/
structure GoTime where
  year : Nat
  month : Nat
  day : Nat
  hour : Nat
  minute : Nat
  sec : Nat
  millis : Nat
  offMinutes : Int
deriving DecidableEq, Repr

def isLeapYear (y : Nat) : Bool :=
  y % 4 = 0 ∧ (y % 100 ≠ 0 ∨ y % 400 = 0)

def daysInMonth (month year : Nat) : Nat :=
  if month = 1 then 31
  else if month = 2 then (if isLeapYear year then 29 else 28)
  else if month = 3 then 31
  else if month = 4 then 30
  else if month = 5 then 31
  else if month = 6 then 30
  else if month = 7 then 31
  else if month = 8 then 31
  else if month = 9 then 30
  else if month = 10 then 31
  else if month = 11 then 30
  else 31

def isDigitChar (c : Char) : Bool := '0' ≤ c ∧ c ≤ '9'

def charAt (cs : List Char) (i : Nat) : Char := cs.getD i ' '

def digAt (cs : List Char) (i : Nat) : Nat := (charAt cs i).toNat - '0'.toNat

def dig2At (cs : List Char) (i : Nat) : Nat := digAt cs i * 10 + digAt cs (i + 1)

def dig3At (cs : List Char) (i : Nat) : Nat :=
  digAt cs i * 100 + digAt cs (i + 1) * 10 + digAt cs (i + 2)

def dig4At (cs : List Char) (i : Nat) : Nat :=
  digAt cs i * 1000 + digAt cs (i + 1) * 100 + digAt cs (i + 2) * 10 + digAt cs (i + 3)

/-- Embedding of `time.ParseInLocation` for the two layouts the program uses:
`2006:01:02 15:04:05.000-07:00` (`withFrac = true`, line 216 of `main.go`) and
`2006:01:02 15:04:05-07:00` (`withFrac = false`, line 222).  Both layouts are
entirely fixed-width (`.000` demands exactly three fractional digits, the zone
is a signed `hh:mm`), so the sequential scan of Go's parser is equivalent to
checking each character class at its fixed position, requiring full
consumption (no "extra text"), and applying Go's range validation of
month/day (against the month's length)/hour/minute/second. -/
def goParseTimestamp (withFrac : Bool) (cs : List Char) : Option GoTime :=
  let zpos := if withFrac then 23 else 19
  let shapeOk : Bool :=
    cs.length = (if withFrac then 29 else 25) &&
    isDigitChar (charAt cs 0) && isDigitChar (charAt cs 1) &&
    isDigitChar (charAt cs 2) && isDigitChar (charAt cs 3) &&
    charAt cs 4 = ':' &&
    isDigitChar (charAt cs 5) && isDigitChar (charAt cs 6) &&
    charAt cs 7 = ':' &&
    isDigitChar (charAt cs 8) && isDigitChar (charAt cs 9) &&
    charAt cs 10 = ' ' &&
    isDigitChar (charAt cs 11) && isDigitChar (charAt cs 12) &&
    charAt cs 13 = ':' &&
    isDigitChar (charAt cs 14) && isDigitChar (charAt cs 15) &&
    charAt cs 16 = ':' &&
    isDigitChar (charAt cs 17) && isDigitChar (charAt cs 18) &&
    (!withFrac || (charAt cs 19 = '.' &&
      isDigitChar (charAt cs 20) && isDigitChar (charAt cs 21) &&
      isDigitChar (charAt cs 22))) &&
    (charAt cs zpos = '+' || charAt cs zpos = '-') &&
    isDigitChar (charAt cs (zpos + 1)) && isDigitChar (charAt cs (zpos + 2)) &&
    charAt cs (zpos + 3) = ':' &&
    isDigitChar (charAt cs (zpos + 4)) && isDigitChar (charAt cs (zpos + 5))
  if shapeOk then
    let y := dig4At cs 0
    let mo := dig2At cs 5
    let d := dig2At cs 8
    let h := dig2At cs 11
    let mi := dig2At cs 14
    let s := dig2At cs 17
    let ms := if withFrac then dig3At cs 20 else 0
    let off : Int := (dig2At cs (zpos + 1) : Int) * 60 + (dig2At cs (zpos + 4) : Int)
    let rangeOk : Bool :=
      1 ≤ mo && mo ≤ 12 && 1 ≤ d && d ≤ daysInMonth mo y &&
      h ≤ 23 && mi ≤ 59 && s ≤ 59
    if rangeOk then
      some ⟨y, mo, d, h, mi, s, ms, if charAt cs zpos = '-' then -off else off⟩
    else none
  else none

/-- Layout `2006:01:02 15:04:05.000-07:00` applied to the
`SubSecDateTimeOriginal` field. -/
def goParseSubSecDateTime (s : String) : Option GoTime :=
  goParseTimestamp true s.data

/-- Layout `2006:01:02 15:04:05-07:00` applied to `CreateDate + TimeZone`. -/
def goParseCreateDateWithZone (s : String) : Option GoTime :=
  goParseTimestamp false s.data

/-- Embedding of `time.Time.Add` of a sub-second duration (the jitter is
`rand.IntN(1000)` milliseconds): add to the wall clock and normalise.  A
delta below one second can carry at most one unit into each coarser field,
which the chain below performs exactly. -/
def goAddMillis (t : GoTime) (j : Nat) : GoTime :=
  let m := t.millis + j
  if m < 1000 then { t with millis := m }
  else
    let ms := m % 1000
    let s := t.sec + m / 1000
    if s < 60 then { t with millis := ms, sec := s }
    else
      let s' := s % 60
      let mi := t.minute + s / 60
      if mi < 60 then { t with millis := ms, sec := s', minute := mi }
      else
        let mi' := mi % 60
        let h := t.hour + mi / 60
        if h < 24 then { t with millis := ms, sec := s', minute := mi', hour := h }
        else
          let h' := h % 24
          let d := t.day + h / 24
          if d ≤ daysInMonth t.month t.year then
            { t with millis := ms, sec := s', minute := mi', hour := h', day := d }
          else if t.month < 12 then
            { t with millis := ms, sec := s', minute := mi', hour := h', day := d - daysInMonth t.month t.year, month := t.month + 1 }
          else
            { t with millis := ms, sec := s', minute := mi', hour := h', day := d - daysInMonth t.month t.year, month := 1, year := t.year + 1 }

def pad2 (n : Nat) : List Char :=
  [Nat.digitChar (n / 10 % 10), Nat.digitChar (n % 10)]

def pad3 (n : Nat) : List Char :=
  [Nat.digitChar (n / 100 % 10), Nat.digitChar (n / 10 % 10), Nat.digitChar (n % 10)]

def pad4 (n : Nat) : List Char :=
  [Nat.digitChar (n / 1000 % 10), Nat.digitChar (n / 100 % 10),
   Nat.digitChar (n / 10 % 10), Nat.digitChar (n % 10)]

/-- Embedding of `creationTime.Format("2006-01-02T150405.000-0700")` (line 232 of
`main.go`): zero-padded calendar fields and the zone offset as `±hhmm`. -/
def goFormatFileName (t : GoTime) : List Char :=
  pad4 t.year ++ '-' :: pad2 t.month ++ '-' :: pad2 t.day ++
  'T' :: pad2 t.hour ++ pad2 t.minute ++ pad2 t.sec ++
  '.' :: pad3 t.millis ++
  (if t.offMinutes < 0 then '-' else '+') ::
    (pad2 (t.offMinutes.natAbs / 60) ++ pad2 (t.offMinutes.natAbs % 60))

/-! ## Go `path/filepath` for the Unix separator

`filepath.Clean` is embedded by its specification in terms of path elements
(the documented semantics of `path.Clean`): split on `/`, drop empty and `.`
elements, resolve `..` against a stack (a leading `..` is kept for relative
paths and dropped for rooted ones), and re-join, with `.` for an empty
relative result and `/` restored in front of a rooted one. -/

/-- Embedding of `strings.Split(cs, "/")` (the list of path elements, with empty strings
around consecutive, leading and trailing separators). -/
def pathSegsAux : List Char → List Char → List (List Char)
  | [], acc => [acc.reverse]
  | c :: rest, acc =>
    if c = '/' then acc.reverse :: pathSegsAux rest []
    else pathSegsAux rest (c :: acc)

def pathSegs (cs : List Char) : List (List Char) := pathSegsAux cs []

/-- Embedding of `strings.Join(l, "/")`. -/
def joinSegs : List (List Char) → List Char
  | [] => []
  | [seg] => seg
  | seg :: rest => seg ++ '/' :: joinSegs rest

/-- The element processing of `filepath.Clean`: `stack` holds the output
elements in reverse. -/
def cleanSegs (rooted : Bool) : List (List Char) → List (List Char) → List (List Char)
  | stack, [] => stack.reverse
  | stack, seg :: rest =>
    if seg = [] ∨ seg = ['.'] then cleanSegs rooted stack rest
    else if seg = ['.', '.'] then
      match stack with
      | [] => if rooted then cleanSegs rooted [] rest else cleanSegs rooted [['.', '.']] rest
      | top :: stk =>
        if top = ['.', '.'] then cleanSegs rooted (seg :: top :: stk) rest
        else cleanSegs rooted stk rest
    else cleanSegs rooted (seg :: stack) rest

/-- Embedding of `filepath.Clean` on Unix. -/
def goCleanList (cs : List Char) : List Char :=
  match cs with
  | [] => ['.']
  | c :: _ =>
    let rooted := c = '/'
    let joined := joinSegs (cleanSegs rooted [] (pathSegs cs))
    if rooted then '/' :: joined
    else if joined = [] then ['.'] else joined

/-- The prefix of the path up to and including its final `/` (the `dir`
component of `filepath.Split`); empty when the path has no separator. -/
def dirPart (cs : List Char) : List Char :=
  (cs.reverse.dropWhile (· ≠ '/')).reverse

/-- Embedding of `filepath.Dir`: everything but the last element, `Clean`ed. -/
def goDirList (cs : List Char) : List Char := goCleanList (dirPart cs)

/-- Embedding of `filepath.Base`: the last element after trailing separators are removed;
`.` for the empty path and `/` for an all-separator path. -/
def goBaseList (cs : List Char) : List Char :=
  if cs = [] then ['.']
  else
    let stripped := cs.reverse.dropWhile (· = '/')
    if stripped = [] then ['/']
    else (stripped.takeWhile (· ≠ '/')).reverse

/-- Embedding of `filepath.Ext`: the suffix of the final element starting at its final
dot; empty when the final element has no dot. -/
def goExtAux : List Char → List Char → List Char
  | [], _ => []
  | c :: rest, acc =>
    if c = '/' then []
    else if c = '.' then c :: acc
    else goExtAux rest (c :: acc)

def goExtList (cs : List Char) : List Char := goExtAux cs.reverse []

/-- Embedding of `filepath.Join` of two elements, as used by `main.go` (`Join` skips
leading empty elements, joins with `/` and `Clean`s the result). -/
def goJoinList (a b : List Char) : List Char :=
  if a = [] then (if b = [] then [] else goCleanList b)
  else goCleanList (a ++ '/' :: b)

def goClean (s : String) : String := String.mk (goCleanList s.data)

def goDir (s : String) : String := String.mk (goDirList s.data)

def goBase (s : String) : String := String.mk (goBaseList s.data)

def goExt (s : String) : String := String.mk (goExtList s.data)

def goJoin (a b : String) : String := String.mk (goJoinList a.data b.data)

/-! ## The worker-loop body of `JpegIDCmd.Run` (lines 181-265 of `main.go`)

One iteration of a worker's `select` loop, for one dequeued file path.  The
exiftool session and the filesystem are external: the session's behaviour
for the request is an explicit `ExifResponse` (what the read/decode of the
response stream produced), the jitter is the explicit result of
`rand.IntN(1000)`, and the filesystem is a stat/rename oracle.  The Go
`break` statements inside the `select` case leave the `select` only, so the
worker proceeds to the next loop iteration; `return` leaves the goroutine
(running the deferred session shutdown).  Indexing `exifs[0]` on an empty
slice is a Go runtime panic, modelled as a distinguished outcome. -/

/-- The struct `Exif` of `JpegIDCmd.Run` (decoded metadata record). -/
structure Exif where
  FileSize : String
  SubSecDateTimeOriginal : String
  CreateDate : String
  TimeZone : String
deriving DecidableEq, Repr

/-- What reading and decoding one response from the session produced:
the request write failed (line 186), the response read failed (line 198),
EOF arrived before the `\x7bready\x7d` sentinel (line 194), the payload
failed `json.Unmarshal` (line 208), or it decoded to a JSON array. -/
inductive ExifResponse where
  | writeError
  | readError
  | prematureEOF
  | malformedJSON
  | records (exifs : List Exif)
deriving DecidableEq, Repr

/-- How one worker-loop iteration ends: fall through to the next iteration
(`break` out of the `select`), leave the loop (`return`), or a runtime
panic. -/
inductive WorkerOutcome where
  | continueLoop
  | exitLoop
  | panicked
deriving DecidableEq, Repr

structure StepResult where
  outcome : WorkerOutcome
  renameCalls : List (String × String)
  outputLines : List String
  loggedErrors : List String
deriving DecidableEq, Repr

/-- The run configuration consumed by the worker body. -/
structure Config where
  dryRun : Bool
  replaceIfExists : Bool
deriving DecidableEq, Repr

/-- Result of `os.Stat(newFilePath)` (line 250): found, `fs.ErrNotExist`,
or some other stat error. -/
inductive StatResult where
  | found
  | notFound
  | statError
deriving DecidableEq, Repr

/-- The filesystem oracle: what `os.Stat` reports for a path and whether an
`os.Rename` call fails. -/
structure FsModel where
  stat : String → StatResult
  renameFails : String → String → Bool

/-- Lines 214-231: resolve the creation time from the metadata record, with
`jitter` standing for `rand.IntN(1000)`. -/
def resolveCreationTime (exif : Exif) (jitter : Nat) : Except String GoTime :=
  if exif.SubSecDateTimeOriginal ≠ "" then
    match goParseSubSecDateTime exif.SubSecDateTimeOriginal with
    | some t => .ok t
    | none => .error "cannot parse SubSecDateTimeOriginal"
  else if exif.CreateDate ≠ "" then
    match goParseCreateDateWithZone (exif.CreateDate ++ exif.TimeZone) with
    | some t => .ok (goAddMillis t jitter)
    | none => .error "cannot parse CreateDate"
  else .error "unable to fetch file creation time"

/-- Line 232: `filepath.Join(filepath.Dir(filePath),
creationTime.Format("2006-01-02T150405.000-0700") + filepath.Ext(filePath))`. -/
def newFilePathFor (filePath : String) (t : GoTime) : String :=
  goJoin (goDir filePath) (String.mk (goFormatFileName t) ++ goExt filePath)

/-- Embedding of `encoding/json` string escaping (default encoder, HTML escaping on). -/
def jsonEscapeChar (c : Char) : List Char :=
  if c = '"' then ['\\', '"']
  else if c = '\\' then ['\\', '\\']
  else if c = '\n' then ['\\', 'n']
  else if c = '\r' then ['\\', 'r']
  else if c = '\t' then ['\\', 't']
  else if c = '<' then ['\\', 'u', '0', '0', '3', 'c']
  else if c = '>' then ['\\', 'u', '0', '0', '3', 'e']
  else if c = '&' then ['\\', 'u', '0', '0', '2', '6']
  else if c.toNat < 0x20 then
    ['\\', 'u', '0', '0', Nat.digitChar (c.toNat / 16), Nat.digitChar (c.toNat % 16)]
  else if c.toNat = 0x2028 then ['\\', 'u', '2', '0', '2', '8']
  else if c.toNat = 0x2029 then ['\\', 'u', '2', '0', '2', '9']
  else [c]

def jsonQuote (s : String) : String :=
  String.mk ('"' :: s.data.flatMap jsonEscapeChar ++ ['"'])

/-- Embedding of `json.Marshal(exif)` for the `Exif` struct (field order is declaration
order). -/
def marshalExif (e : Exif) : String :=
  "\x7b\"FileSize\":" ++ jsonQuote e.FileSize ++
  ",\"SubSecDateTimeOriginal\":" ++ jsonQuote e.SubSecDateTimeOriginal ++
  ",\"CreateDate\":" ++ jsonQuote e.CreateDate ++
  ",\"TimeZone\":" ++ jsonQuote e.TimeZone ++ "\x7d"

/-- The dry-run report line written with `fmt.Fprintf(jpegidCmd.Stdout,
"%s => %s %s\n", ...)` (line 238). -/
def dryRunLine (filePath newFilePath : String) (exif : Exif) : String :=
  filePath ++ " => " ++ newFilePath ++ " " ++ marshalExif exif ++ "\n"

/-- One iteration of the worker loop for one dequeued `filePath`
(lines 181-265 of `main.go`).  `outputLines` records `fmt.Fprintf` writes to
the output sink, `renameCalls` records every `os.Rename` invocation (whether
or not it succeeds), `loggedErrors` the `logger.Error` diagnostics. -/
def workerStep (cfg : Config) (fsm : FsModel) (filePath : String)
    (resp : ExifResponse) (jitter : Nat) : StepResult :=
  match resp with
  | .writeError => ⟨.continueLoop, [], [], ["write to exiftool stdin failed"]⟩
  | .readError => ⟨.exitLoop, [], [], ["read from exiftool stdout failed"]⟩
  | .prematureEOF => ⟨.exitLoop, [], [], ["exiftool returned EOF prematurely"]⟩
  | .malformedJSON => ⟨.continueLoop, [], [], ["json unmarshal error"]⟩
  | .records exifs =>
    match exifs with
    | [] => ⟨.panicked, [], [], []⟩
    | exif :: _ =>
      match resolveCreationTime exif jitter with
      | .error msg => ⟨.continueLoop, [], [], [msg]⟩
      | .ok t =>
        let newFilePath := newFilePathFor filePath t
        if cfg.dryRun then
          ⟨.continueLoop, [], [dryRunLine filePath newFilePath exif], []⟩
        else if cfg.replaceIfExists then
          if fsm.renameFails filePath newFilePath then
            ⟨.continueLoop, [(filePath, newFilePath)], [], ["rename failed"]⟩
          else
            ⟨.continueLoop, [(filePath, newFilePath)], [], []⟩
        else
          match fsm.stat newFilePath with
          | .statError => ⟨.continueLoop, [], [], ["stat failed"]⟩
          | .notFound =>
            if fsm.renameFails filePath newFilePath then
              ⟨.continueLoop, [(filePath, newFilePath)], [], ["rename failed"]⟩
            else
              ⟨.continueLoop, [(filePath, newFilePath)], [], []⟩
          | .found => ⟨.continueLoop, [], [], []⟩

/-- How a whole worker goroutine ends: the task source is exhausted (the
worker is still in its loop, to be released by `ctx.Done()`), the goroutine
returned (running its deferred session shutdown — "drained"), or it
panicked. -/
inductive RunEnd where
  | finishedAll
  | exitedLoop
  | panicked
deriving DecidableEq, Repr

structure RunResult where
  consumed : Nat
  renameCalls : List (String × String)
  outputLines : List String
  loggedErrors : List String
  ending : RunEnd
deriving DecidableEq, Repr

/-- The worker loop over a sequence of dequeued tasks, each with the
session response and jitter for that task: iterate `workerStep` until an
iteration leaves the loop or panics. -/
def workerRun (cfg : Config) (fsm : FsModel) :
    List (String × ExifResponse × Nat) → RunResult
  | [] => ⟨0, [], [], [], .finishedAll⟩
  | (p, resp, j) :: rest =>
    let r := workerStep cfg fsm p resp j
    match r.outcome with
    | .continueLoop =>
      let rr := workerRun cfg fsm rest
      ⟨rr.consumed + 1, r.renameCalls ++ rr.renameCalls,
       r.outputLines ++ rr.outputLines, r.loggedErrors ++ rr.loggedErrors, rr.ending⟩
    | .exitLoop => ⟨1, r.renameCalls, r.outputLines, r.loggedErrors, .exitedLoop⟩
    | .panicked => ⟨1, r.renameCalls, r.outputLines, r.loggedErrors, .panicked⟩

/-! ## The discovery producer (lines 269-297 of `main.go`)

`fs.WalkDir(os.DirFS(root), ".", fn)` over a directory tree, with the
producer callback `fn`.  Directory entries are modelled as a rose tree; the
walk visits a directory's entries in list order (Go sorts them by name; the
claims are order-generic).  Cancellation: `ctx.Done()` is consulted only at
the emission `select`, so the context is modelled by the number of emissions
that succeed before cancellation is observed (`budget = none`: never
cancelled). -/

inductive FsNode where
  | file (name : String)
  | dir (name : String) (children : List FsNode)
deriving Repr

def FsNode.name : FsNode → String
  | .file n => n
  | .dir n _ => n

def FsNode.isDir : FsNode → Bool
  | .file _ => false
  | .dir _ _ => true

/-- The Go `error` results the modelled callbacks produce: `fs.SkipDir`,
`ctx.Err()` (= `context.Canceled`), or none. -/
inductive WalkSignal where
  | ok
  | skipDir
  | canceled
deriving DecidableEq, Repr

/-- State threaded through the walk: tasks emitted into the channel so far,
every `(path, isDir)` the callback was invoked on, and the remaining
emission budget before the context is observed cancelled. -/
structure ProdState where
  emitted : List String
  visited : List (String × Bool)
  budget : Option Nat
deriving DecidableEq, Repr

/-- The walk-callback closure of `JpegIDCmd.Run` (lines 270-293): record the
visit; directories other than `.` are skipped unless `-recursive`; a file
whose name matches some pattern is emitted once — at the emission `select`,
an observed cancellation returns `ctx.Err()` instead.  Compiled patterns
are abstracted to their match predicate (`MatchString`). -/
def producerVisit (pats : List (String → Bool)) (recursive : Bool) (root : String)
    (s : ProdState) (path : String) (name : String) (isDir : Bool) :
    ProdState × WalkSignal :=
  let s := { s with visited := s.visited ++ [(path, isDir)] }
  if isDir then
    if path ≠ "." ∧ ¬recursive then (s, .skipDir) else (s, .ok)
  else
    match pats.find? (fun r => r name) with
    | some _ =>
      match s.budget with
      | some 0 => (s, .canceled)
      | some (k + 1) => ({ s with emitted := s.emitted ++ [goJoin root path], budget := some k }, .ok)
      | none => ({ s with emitted := s.emitted ++ [goJoin root path] }, .ok)
    | none => (s, .ok)

mutual

/-- Embedding of `io/fs.walkDir`: call the callback on the node; on a directory with no
error, recurse into the children; `SkipDir` from a directory's own visit
skips its children and is swallowed, `SkipDir` bubbling out of a child stops
the sibling loop (swallowed), any other error aborts the walk. -/
def goWalkDir (f : ProdState → String → String → Bool → ProdState × WalkSignal)
    (s : ProdState) (path : String) : FsNode → ProdState × WalkSignal
  | .file n => f s path n false
  | .dir n children =>
    match f s path n true with
    | (s', .skipDir) => (s', .ok)
    | (s', .canceled) => (s', .canceled)
    | (s', .ok) => goWalkList f s' path children

/-- The sibling loop of `io/fs.walkDir` over a directory's entries. -/
def goWalkList (f : ProdState → String → String → Bool → ProdState × WalkSignal)
    (s : ProdState) (dirPath : String) : List FsNode → ProdState × WalkSignal
  | [] => (s, .ok)
  | c :: rest =>
    match goWalkDir f s (goJoin dirPath c.name) c with
    | (s', .skipDir) => (s', .ok)
    | (s', .canceled) => (s', .canceled)
    | (s', .ok) => goWalkList f s' dirPath rest

end

/-- One `fs.WalkDir` call of the producer for one root (line 270): start at
path `.`; `fs.WalkDir` converts a top-level `SkipDir` to success. -/
def runProducer (pats : List (String → Bool)) (recursive : Bool) (root : String)
    (tree : FsNode) (budget : Option Nat) : ProdState × WalkSignal :=
  match goWalkDir (producerVisit pats recursive root) ⟨[], [], budget⟩ "." tree with
  | (s, .skipDir) => (s, .ok)
  | r => r

/-! ## `compileRegexp` (lines 301-324 of `main.go`)

Only the string rewriting performed before `regexp.Compile` is embedded;
regex matching semantics are outside the modelled core (spec §1).  Go
iterates over runes; `prev` is the last rune of the output builder (the
rune-error placeholder when the builder is empty, which is not `\`), `next`
the rune after the current one (the rune-error placeholder at the end,
which is not an ASCII letter). -/

def isASCIILetter (c : Char) : Bool :=
  ('a' ≤ c ∧ c ≤ 'z') ∨ ('A' ≤ c ∧ c ≤ 'Z')

/-- The rewrite loop of `compileRegexp`: `out` is the builder `b`. -/
def rewriteDotsAux : List Char → List Char → List Char
  | out, [] => out
  | out, c :: rest =>
    if out.getLast? != some '\\' && c == '.' &&
        (match rest.head? with | some n => isASCIILetter n | none => false) then
      rewriteDotsAux (out ++ ['\\', '.']) rest
    else
      rewriteDotsAux (out ++ [c]) rest

/-- Lines 306-308: drop a leading `./` when the pattern is longer than two
bytes (a char beyond `./` is at least one byte, so byte length over two is
the same as a nonempty remainder). -/
def stripLeadingDotSlash (cs : List Char) : List Char :=
  match cs with
  | '.' :: '/' :: rest => if rest ≠ [] then rest else cs
  | _ => cs

/-- The pattern string handed to `regexp.Compile` by `compileRegexp`:
unchanged when it contains no dot (`strings.Count(pattern, ".") == 0`),
otherwise stripped of a leading `./` and dot-rewritten. -/
def compileRegexpPattern (pattern : String) : String :=
  if pattern.data.count '.' = 0 then pattern
  else String.mk (rewriteDotsAux [] (stripLeadingDotSlash pattern.data))

/-- Reference form of the rewrite for the equivalence proof: a single scan
of the input in which `prev` is the previous input character.  (In the
builder version, the last output rune after each step is exactly the input
character just consumed, so the two agree; proved below.) -/
def rewriteDotsSpec : Option Char → List Char → List Char
  | _, [] => []
  | prev, c :: rest =>
    if prev != some '\\' && c == '.' &&
        (match rest.head? with | some n => isASCIILetter n | none => false) then
      '\\' :: '.' :: rewriteDotsSpec (some '.') rest
    else
      c :: rewriteDotsSpec (some c) rest

/-! ## Specification-side definitions

Definitions below follow the wording of the specification (for comparison
against the embedded code), plus decidable well-formedness predicates used
as hypotheses. -/

/-- Predicate for "its base name matches at least one pattern". -/
def matchesAny (pats : List (String → Bool)) (name : String) : Bool :=
  pats.any (fun r => r name)

mutual

/-- The sequence of relative paths the producer's walk emits below a node
whose own walk path is `rel`: a matching file contributes its path; a
directory's subtree is included when it is the walk root `.` or the mode is
recursive. -/
def specEmits (pats : List (String → Bool)) (recursive : Bool) (rel : String) :
    FsNode → List String
  | .file name => if matchesAny pats name then [rel] else []
  | .dir _ children =>
    if rel = "." ∨ recursive then specEmitsList pats recursive rel children else []

def specEmitsList (pats : List (String → Bool)) (recursive : Bool) (dirPath : String) :
    List FsNode → List String
  | [] => []
  | c :: rest =>
    specEmits pats recursive (goJoin dirPath c.name) c ++
      specEmitsList pats recursive dirPath rest

end

mutual

/-- The `(path, isDir)` visits the walk makes below a node at path `rel`. -/
def specVisits (recursive : Bool) (rel : String) : FsNode → List (String × Bool)
  | .file _ => [(rel, false)]
  | .dir _ children =>
    (rel, true) ::
      (if rel = "." ∨ recursive then specVisitsList recursive rel children else [])

def specVisitsList (recursive : Bool) (dirPath : String) :
    List FsNode → List (String × Bool)
  | [] => []
  | c :: rest =>
    specVisits recursive (goJoin dirPath c.name) c ++
      specVisitsList recursive dirPath rest

end

mutual

/-- Spec §4.1/§8: "every regular file under every root whose base name
matches at least one pattern ..., regardless of depth", as relative paths. -/
def allMatchingFiles (pats : List (String → Bool)) (rel : String) :
    FsNode → List String
  | .file name => if matchesAny pats name then [rel] else []
  | .dir _ children => allMatchingFilesList pats rel children

def allMatchingFilesList (pats : List (String → Bool)) (dirPath : String) :
    List FsNode → List String
  | [] => []
  | c :: rest =>
    allMatchingFiles pats (goJoin dirPath c.name) c ++
      allMatchingFilesList pats dirPath rest

end

/-- A well-formed directory-entry name: nonempty, no separator, not one of
the special entries `.`/`..` (guaranteed for real `ReadDir` entries). -/
def simpleName (s : String) : Bool :=
  s ≠ "" && !s.data.contains '/' && s ≠ "." && s ≠ ".."

/-- A path element that `Clean` passes through untouched. -/
def isSimpleSeg (seg : List Char) : Bool :=
  seg ≠ [] && seg ≠ ['.'] && seg ≠ ['.', '.']

def allSimpleSegs (l : List (List Char)) : Bool := l.all isSimpleSeg

/-- A path already in canonical form: nonempty, optionally rooted, with all
elements nonempty and none of them `.` or `..` (so `Clean` is the
identity on it). -/
def NormPathL (cs : List Char) : Bool :=
  match cs with
  | [] => false
  | c :: rest =>
    if c = '/' then rest ≠ [] && allSimpleSegs (pathSegs rest)
    else allSimpleSegs (pathSegs (c :: rest))

def isNormPath (s : String) : Bool := NormPathL s.data

/-! ## Lemmas about path elements and `Clean` -/

theorem pathSegsAux_ne_nil (cs acc : List Char) : pathSegsAux cs acc ≠ [] := by
  induction cs generalizing acc with
  | nil => simp [pathSegsAux]
  | cons c rest ih =>
    simp only [pathSegsAux]
    split
    · simp
    · exact ih _

theorem joinSegs_cons_of_ne_nil (a : List Char) (l : List (List Char)) (h : l ≠ []) :
    joinSegs (a :: l) = a ++ '/' :: joinSegs l := by
  cases l with
  | nil => exact absurd rfl h
  | cons b m => rfl

theorem pathSegsAux_append_sep (xs ys acc : List Char) :
    pathSegsAux (xs ++ '/' :: ys) acc = pathSegsAux xs acc ++ pathSegs ys := by
  induction xs generalizing acc with
  | nil => simp [pathSegsAux, pathSegs]
  | cons c rest ih =>
    simp only [List.cons_append, pathSegsAux]
    split
    · simp [ih]
    · exact ih _

theorem pathSegsAux_no_sep (xs acc : List Char) (h : '/' ∉ xs) :
    pathSegsAux xs acc = [acc.reverse ++ xs] := by
  induction xs generalizing acc with
  | nil => simp [pathSegsAux]
  | cons c rest ih =>
    simp only [pathSegsAux]
    rw [if_neg (by rintro rfl; exact h (List.mem_cons_self _ _))]
    rw [ih _ (fun hm => h (List.mem_cons_of_mem _ hm))]
    simp

theorem joinSegs_pathSegsAux (cs acc : List Char) :
    joinSegs (pathSegsAux cs acc) = acc.reverse ++ cs := by
  induction cs generalizing acc with
  | nil => simp [pathSegsAux, joinSegs]
  | cons c rest ih =>
    simp only [pathSegsAux]
    split
    · next hc =>
      subst hc
      rw [joinSegs_cons_of_ne_nil _ _ (pathSegsAux_ne_nil _ _), ih]
      simp [pathSegs]
    · rw [ih]
      simp

theorem joinSegs_pathSegs (cs : List Char) : joinSegs (pathSegs cs) = cs :=
  joinSegs_pathSegsAux cs []

theorem pathSegsAux_no_slash (cs acc : List Char) (hacc : '/' ∉ acc) :
    ∀ seg ∈ pathSegsAux cs acc, '/' ∉ seg := by
  induction cs generalizing acc with
  | nil =>
    intro seg hseg
    simp [pathSegsAux] at hseg
    subst hseg
    simpa using hacc
  | cons c rest ih =>
    intro seg hseg
    simp only [pathSegsAux] at hseg
    split at hseg
    · rcases List.mem_cons.mp hseg with h | h
      · subst h; simpa using hacc
      · exact ih [] (by simp) seg h
    · next hc =>
      exact ih (c :: acc) (by simp [hacc, Ne.symm hc]) seg hseg

theorem pathSegs_no_slash (cs : List Char) : ∀ seg ∈ pathSegs cs, '/' ∉ seg :=
  pathSegsAux_no_slash cs [] (by simp)

theorem pathSegs_joinSegs (S : List (List Char)) (h : ∀ seg ∈ S, '/' ∉ seg)
    (hne : S ≠ []) : pathSegs (joinSegs S) = S := by
  induction S with
  | nil => exact absurd rfl hne
  | cons s rest ih =>
    cases rest with
    | nil =>
      simpa [joinSegs, pathSegs] using
        pathSegsAux_no_sep s [] (h s (List.mem_cons_self _ _))
    | cons s₂ rest₂ =>
      rw [joinSegs_cons_of_ne_nil _ _ (by simp)]
      show pathSegsAux (s ++ '/' :: joinSegs (s₂ :: rest₂)) [] = _
      rw [pathSegsAux_append_sep, pathSegsAux_no_sep s [] (h s (List.mem_cons_self _ _))]
      rw [ih (fun seg hm => h seg (List.mem_cons_of_mem _ hm)) (by simp)]
      simp

theorem joinSegs_concat (S : List (List Char)) (b : List Char) (h : S ≠ []) :
    joinSegs (S ++ [b]) = joinSegs S ++ '/' :: b := by
  induction S with
  | nil => exact absurd rfl h
  | cons s rest ih =>
    cases rest with
    | nil => simp [joinSegs]
    | cons s₂ rest₂ =>
      rw [List.cons_append, joinSegs_cons_of_ne_nil _ _ (by simp),
        joinSegs_cons_of_ne_nil _ _ (by simp), ih (by simp)]
      simp

theorem cleanSegs_all_simple (rooted : Bool) (segs stack : List (List Char))
    (h : allSimpleSegs segs = true) :
    cleanSegs rooted stack segs = stack.reverse ++ segs := by
  induction segs generalizing stack with
  | nil => simp [cleanSegs]
  | cons seg rest ih =>
    simp only [allSimpleSegs, List.all_cons, Bool.and_eq_true] at h
    obtain ⟨hseg, hrest⟩ := h
    simp only [isSimpleSeg, Bool.and_eq_true, decide_eq_true_eq,
      bne_iff_ne, ne_eq] at hseg
    simp only [cleanSegs]
    rw [if_neg (by
      push_neg
      refine ⟨?_, ?_⟩
      · simpa using hseg.1.1
      · simpa using hseg.1.2)]
    rw [if_neg (by simpa using hseg.2)]
    rw [ih _ hrest]
    simp

theorem cleanSegs_simple_steps (rooted : Bool) (S : List (List Char))
    (h : allSimpleSegs S = true) :
    ∀ stack rest, cleanSegs rooted stack (S ++ rest) = cleanSegs rooted (S.reverse ++ stack) rest := by
  induction S with
  | nil => intro stack rest; simp
  | cons seg tl ih =>
    intro stack rest
    simp only [allSimpleSegs, List.all_cons, Bool.and_eq_true] at h
    obtain ⟨hseg, htl⟩ := h
    simp only [isSimpleSeg, Bool.and_eq_true, decide_eq_true_eq,
      bne_iff_ne, ne_eq] at hseg
    simp only [List.cons_append, cleanSegs]
    rw [if_neg (by
      push_neg
      exact ⟨by simpa using hseg.1.1, by simpa using hseg.1.2⟩)]
    rw [if_neg (by simpa using hseg.2)]
    show cleanSegs rooted (seg :: stack) (tl ++ rest) = _
    rw [ih htl]
    simp

theorem pathSegs_cons_slash (r : List Char) : pathSegs ('/' :: r) = [] :: pathSegs r := by
  simp [pathSegs, pathSegsAux]

theorem head_ne_slash_of_allSimple (c : Char) (rest : List Char)
    (h : allSimpleSegs (pathSegs (c :: rest)) = true) : c ≠ '/' := by
  rintro rfl
  rw [pathSegs_cons_slash] at h
  simp [allSimpleSegs, isSimpleSeg] at h

theorem goCleanList_norm_rel (cs : List Char) (hne : cs ≠ [])
    (h : allSimpleSegs (pathSegs cs) = true) : goCleanList cs = cs := by
  cases cs with
  | nil => exact absurd rfl hne
  | cons c rest =>
    have hc : c ≠ '/' := head_ne_slash_of_allSimple c rest h
    simp only [goCleanList]
    rw [if_neg hc, cleanSegs_all_simple _ _ _ h]
    simp only [List.reverse_nil, List.nil_append, joinSegs_pathSegs]
    rw [if_neg (by simp)]

theorem goCleanList_norm_rooted (r : List Char) (_hne : r ≠ [])
    (h : allSimpleSegs (pathSegs r) = true) : goCleanList ('/' :: r) = '/' :: r := by
  simp only [goCleanList, decide_True, if_true]
  rw [pathSegs_cons_slash]
  rw [show cleanSegs true [] ([] :: pathSegs r) = cleanSegs true [] (pathSegs r) from by
    simp [cleanSegs]]
  rw [cleanSegs_all_simple _ _ _ h]
  simp [joinSegs_pathSegs]

theorem pathSegs_append_empty (cs : List Char) :
    pathSegs (cs ++ ['/']) = pathSegs cs ++ [[]] := by
  have : cs ++ ['/'] = cs ++ '/' :: [] := rfl
  rw [this, pathSegs, pathSegsAux_append_sep]
  simp [pathSegs, pathSegsAux]

theorem cleanSegs_simple_trailing_empty (rooted : Bool) (S : List (List Char))
    (h : allSimpleSegs S = true) : cleanSegs rooted [] (S ++ [[]]) = S := by
  rw [cleanSegs_simple_steps rooted S h [] [[]]]
  simp [cleanSegs]

theorem goCleanList_norm_rel_trailing (cs : List Char) (hne : cs ≠ [])
    (h : allSimpleSegs (pathSegs cs) = true) : goCleanList (cs ++ ['/']) = cs := by
  cases cs with
  | nil => exact absurd rfl hne
  | cons c rest =>
    have hc : c ≠ '/' := head_ne_slash_of_allSimple c rest h
    simp only [List.cons_append, goCleanList]
    rw [if_neg hc]
    have hsegs : pathSegs (c :: (rest ++ ['/'])) = pathSegs (c :: rest) ++ [[]] := by
      have := pathSegs_append_empty (c :: rest)
      simpa using this
    rw [hsegs, cleanSegs_simple_trailing_empty _ _ h, joinSegs_pathSegs]
    rw [if_neg (by simp)]

theorem goCleanList_norm_rooted_trailing (r : List Char) (_hne : r ≠ [])
    (h : allSimpleSegs (pathSegs r) = true) :
    goCleanList ('/' :: r ++ ['/']) = '/' :: r := by
  simp only [List.cons_append, goCleanList, decide_True, if_true]
  have hsegs : pathSegs ('/' :: (r ++ ['/'])) = [] :: (pathSegs r ++ [[]]) := by
    rw [pathSegs_cons_slash, pathSegs_append_empty]
  rw [hsegs]
  rw [show cleanSegs true [] ([] :: (pathSegs r ++ [[]]))
      = cleanSegs true [] (pathSegs r ++ [[]]) from by simp [cleanSegs]]
  rw [cleanSegs_simple_trailing_empty _ _ h, joinSegs_pathSegs]

theorem dropWhile_append_all {p : Char → Bool} (l₁ l₂ : List Char)
    (h : ∀ a ∈ l₁, p a) : (l₁ ++ l₂).dropWhile p = l₂.dropWhile p := by
  induction l₁ with
  | nil => rfl
  | cons a l ih => simp_all [List.dropWhile_cons]

theorem takeWhile_append_all {p : Char → Bool} (l₁ l₂ : List Char)
    (h : ∀ a ∈ l₁, p a) : (l₁ ++ l₂).takeWhile p = l₁ ++ l₂.takeWhile p := by
  induction l₁ with
  | nil => rfl
  | cons a l ih => simp_all [List.takeWhile_cons]

theorem dirPart_append (x b : List Char) (hb : '/' ∉ b) :
    dirPart (x ++ '/' :: b) = x ++ ['/'] := by
  unfold dirPart
  have h1 : (x ++ '/' :: b).reverse = b.reverse ++ '/' :: x.reverse := by simp
  rw [h1]
  rw [dropWhile_append_all _ _ (fun a ha => by
    simp only [decide_eq_true_eq]
    rintro rfl
    exact hb (List.mem_reverse.mp ha))]
  rw [List.dropWhile_cons]
  simp

theorem dirPart_no_sep (cs : List Char) (h : '/' ∉ cs) : dirPart cs = [] := by
  unfold dirPart
  rw [List.dropWhile_eq_nil_iff.mpr (fun a ha => by
    simp only [decide_eq_true_eq]
    rintro rfl
    exact h (List.mem_reverse.mp ha))]
  rfl

theorem goBaseList_no_sep (cs : List Char) (h : '/' ∉ cs) (hne : cs ≠ []) :
    goBaseList cs = cs := by
  unfold goBaseList
  rw [if_neg hne]
  have hall : ∀ a ∈ cs.reverse, a ≠ '/' := fun a ha => by
    rintro rfl; exact h (List.mem_reverse.mp ha)
  have hdrop : cs.reverse.dropWhile (· = '/') = cs.reverse := by
    cases hrev : cs.reverse with
    | nil => rfl
    | cons a l =>
      rw [List.dropWhile_cons, if_neg (by
        simp only [decide_eq_true_eq]
        exact hall a (by rw [hrev]; exact List.mem_cons_self _ _))]
  rw [hdrop]
  rw [if_neg (by simpa using hne)]
  rw [List.takeWhile_eq_self_iff.mpr (fun a ha => by
    simpa using hall a ha)]
  simp

theorem goBaseList_append (x b : List Char) (hb : '/' ∉ b) (hbne : b ≠ []) :
    goBaseList (x ++ '/' :: b) = b := by
  unfold goBaseList
  rw [if_neg (by simp)]
  have hrev : (x ++ '/' :: b).reverse = b.reverse ++ '/' :: x.reverse := by
    rw [List.reverse_append, List.reverse_cons]; simp
  have hallb : ∀ a ∈ b.reverse, a ≠ '/' := fun a ha => by
    rintro rfl; exact hb (List.mem_reverse.mp ha)
  have hdrop : (b.reverse ++ '/' :: x.reverse).dropWhile (· = '/') = b.reverse ++ '/' :: x.reverse := by
    cases hb' : b.reverse with
    | nil => simp at hb'; exact absurd hb' hbne
    | cons a l =>
      rw [List.cons_append, List.dropWhile_cons, if_neg (by
        simp only [decide_eq_true_eq]
        exact hallb a (by rw [hb']; exact List.mem_cons_self _ _))]
  rw [hrev, hdrop]
  rw [if_neg (by simp [hbne])]
  rw [takeWhile_append_all _ _ (fun a ha => by
    simp only [decide_eq_true_eq, bne_iff_ne, ne_eq]
    exact hallb a ha)]
  rw [List.takeWhile_cons]
  simp

theorem goExtAux_no_slash (l acc : List Char) (hacc : '/' ∉ acc) :
    '/' ∉ goExtAux l acc := by
  induction l generalizing acc with
  | nil => simp [goExtAux]
  | cons c rest ih =>
    simp only [goExtAux]
    split
    · simp
    · next hc =>
      split
      · next hdot =>
        subst hdot
        intro hmem
        rcases List.mem_cons.mp hmem with h | h
        · simp at h
        · exact hacc h
      · exact ih (c :: acc) (by
          intro hmem
          rcases List.mem_cons.mp hmem with h | h
          · exact hc h.symm
          · exact hacc h)

theorem goExtList_no_slash (cs : List Char) : '/' ∉ goExtList cs :=
  goExtAux_no_slash cs.reverse [] (by simp)

/-! ## The formatted base name is a simple path element -/

theorem digitChar_mod10_ne_slash (n : Nat) : Nat.digitChar (n % 10) ≠ '/' := by
  have h : n % 10 < 10 := Nat.mod_lt _ (by norm_num)
  revert h
  generalize n % 10 = d
  intro h
  exact (by decide : ∀ d, d < 10 → Nat.digitChar d ≠ '/') d h

theorem digitChar_mod10_ne_dot (n : Nat) : Nat.digitChar (n % 10) ≠ '.' := by
  have h : n % 10 < 10 := Nat.mod_lt _ (by norm_num)
  revert h
  generalize n % 10 = d
  intro h
  exact (by decide : ∀ d, d < 10 → Nat.digitChar d ≠ '.') d h

theorem pad2_no_slash (n : Nat) : '/' ∉ pad2 n := by
  intro h
  simp only [pad2, List.mem_cons, List.not_mem_nil, or_false] at h
  rcases h with h | h
  · exact digitChar_mod10_ne_slash _ h.symm
  · exact digitChar_mod10_ne_slash _ h.symm

theorem pad3_no_slash (n : Nat) : '/' ∉ pad3 n := by
  intro h
  simp only [pad3, List.mem_cons, List.not_mem_nil, or_false] at h
  rcases h with h | h | h
  · exact digitChar_mod10_ne_slash _ h.symm
  · exact digitChar_mod10_ne_slash _ h.symm
  · exact digitChar_mod10_ne_slash _ h.symm

theorem pad4_no_slash (n : Nat) : '/' ∉ pad4 n := by
  intro h
  simp only [pad4, List.mem_cons, List.not_mem_nil, or_false] at h
  rcases h with h | h | h | h
  · exact digitChar_mod10_ne_slash _ h.symm
  · exact digitChar_mod10_ne_slash _ h.symm
  · exact digitChar_mod10_ne_slash _ h.symm
  · exact digitChar_mod10_ne_slash _ h.symm

theorem goFormatFileName_no_slash (t : GoTime) : '/' ∉ goFormatFileName t := by
  intro h
  simp only [goFormatFileName, List.mem_append, List.mem_cons] at h
  repeat' rcases h with h | h
  all_goals first
    | exact pad2_no_slash _ h
    | exact pad3_no_slash _ h
    | exact pad4_no_slash _ h
    | exact absurd h (by decide)
    | (split at h <;> exact absurd h (by decide))

theorem goFormatFileName_head (t : GoTime) :
    (goFormatFileName t).head? = some (Nat.digitChar (t.year / 1000 % 10)) := rfl

theorem goFormatFileName_base_simple (t : GoTime) (ext : List Char)
    (hext : '/' ∉ ext) :
    isSimpleSeg (goFormatFileName t ++ ext) = true ∧ '/' ∉ (goFormatFileName t ++ ext) := by
  constructor
  · have hhead : (goFormatFileName t ++ ext).head? = some (Nat.digitChar (t.year / 1000 % 10)) := by
      rw [List.head?_append, goFormatFileName_head]
      rfl
    simp only [isSimpleSeg, Bool.and_eq_true, bne_iff_ne, ne_eq, decide_eq_true_eq]
    refine ⟨⟨?_, ?_⟩, ?_⟩
    · intro hnil
      rw [hnil] at hhead
      simp at hhead
    · intro hdot
      rw [hdot] at hhead
      simp only [List.head?_cons, Option.some.injEq] at hhead
      exact digitChar_mod10_ne_dot _ hhead.symm
    · intro hdots
      rw [hdots] at hhead
      simp only [List.head?_cons, Option.some.injEq] at hhead
      exact digitChar_mod10_ne_dot _ hhead.symm
  · intro h
    rcases List.mem_append.mp h with h | h
    · exact goFormatFileName_no_slash t h
    · exact hext h

/-! ## Joining a simple base name onto a cleaned directory -/

/-- The possible results of `filepath.Dir` on a path in canonical form:
`.`, `/`, a canonical relative path, or a canonical rooted path. -/
def CleanDirShape (dd : List Char) : Prop :=
  dd = ['.'] ∨ dd = ['/'] ∨
  (dd ≠ [] ∧ allSimpleSegs (pathSegs dd) = true) ∨
  (∃ r, dd = '/' :: r ∧ r ≠ [] ∧ allSimpleSegs (pathSegs r) = true)

theorem isSimpleSeg_ne_nil {bb : List Char} (hb : isSimpleSeg bb = true) : bb ≠ [] := by
  simp only [isSimpleSeg, Bool.and_eq_true, bne_iff_ne, ne_eq, decide_eq_true_eq] at hb
  simpa using hb.1.1

theorem allSimpleSegs_single {bb : List Char} (hb : isSimpleSeg bb = true) :
    allSimpleSegs [bb] = true := by
  simp [allSimpleSegs, hb]

theorem pathSegs_single {bb : List Char} (hbs : '/' ∉ bb) : pathSegs bb = [bb] := by
  simpa using pathSegsAux_no_sep bb [] hbs

/-- Computation `Join(".", b) = b` for a simple element `b`. -/
theorem goJoinList_dot (bb : List Char) (hb : isSimpleSeg bb = true)
    (hbs : '/' ∉ bb) : goJoinList ['.'] bb = bb := by
  have hbb : bb ≠ [] := isSimpleSeg_ne_nil hb
  show goCleanList (['.'] ++ '/' :: bb) = bb
  have hsegs : pathSegs (['.'] ++ '/' :: bb) = [['.']] ++ [bb] := by
    rw [pathSegs, pathSegsAux_append_sep, pathSegs_single hbs]
    rfl
  simp only [List.singleton_append, goCleanList]
  rw [if_neg (by decide)]
  have : pathSegs ('.' :: '/' :: bb) = [['.'], bb] := by simpa using hsegs
  rw [this]
  rw [show decide (('.' : Char) = '/') = false from rfl]
  rw [show cleanSegs false [] [['.'], bb] = cleanSegs false [] [bb] from by
    simp [cleanSegs]]
  rw [cleanSegs_all_simple _ _ _ (allSimpleSegs_single hb)]
  simp only [List.reverse_nil, List.nil_append, joinSegs]
  rw [if_neg hbb]

/-- Computation `Join("/", b) = "/" ++ b` for a simple element `b`. -/
theorem goJoinList_slash (bb : List Char) (hb : isSimpleSeg bb = true)
    (hbs : '/' ∉ bb) : goJoinList ['/'] bb = '/' :: bb := by
  show goCleanList (['/'] ++ '/' :: bb) = '/' :: bb
  have : ('/' : Char) :: '/' :: bb = '/' :: ('/' :: bb) := rfl
  simp only [List.singleton_append]
  rw [show ('/' : Char) :: '/' :: bb = '/' :: ('/' :: bb) from rfl]
  rw [goCleanList]
  simp only [decide_True, if_true]
  rw [pathSegs_cons_slash, pathSegs_cons_slash, pathSegs_single hbs]
  rw [show cleanSegs true [] ([] :: [] :: [bb]) = cleanSegs true [] [bb] from by
    simp [cleanSegs]]
  rw [cleanSegs_all_simple _ _ _ (allSimpleSegs_single hb)]
  rfl

theorem allSimpleSegs_append_singleton {S : List (List Char)} {bb : List Char}
    (hS : allSimpleSegs S = true) (hb : isSimpleSeg bb = true) :
    allSimpleSegs (S ++ [bb]) = true := by
  simp [allSimpleSegs, List.all_append, hS, hb] at *
  simp_all

/-- Computation `Join(d, b) = d ++ "/" ++ b` for a canonical relative `d` and simple `b`. -/
theorem goJoinList_norm_rel (dd bb : List Char) (hdne : dd ≠ [])
    (hds : allSimpleSegs (pathSegs dd) = true) (hb : isSimpleSeg bb = true)
    (hbs : '/' ∉ bb) : goJoinList dd bb = dd ++ '/' :: bb := by
  unfold goJoinList
  rw [if_neg hdne]
  apply goCleanList_norm_rel _ (by simp)
  rw [pathSegs, pathSegsAux_append_sep, pathSegs_single hbs]
  exact allSimpleSegs_append_singleton hds hb

/-- Computation `Join(d, b)` for canonical rooted `d = "/" ++ r`. -/
theorem goJoinList_norm_rooted (r bb : List Char) (_hrne : r ≠ [])
    (hrs : allSimpleSegs (pathSegs r) = true) (hb : isSimpleSeg bb = true)
    (hbs : '/' ∉ bb) : goJoinList ('/' :: r) bb = '/' :: r ++ '/' :: bb := by
  unfold goJoinList
  rw [if_neg (by simp)]
  have h1 : ('/' :: r) ++ '/' :: bb = '/' :: (r ++ '/' :: bb) := rfl
  rw [h1]
  apply goCleanList_norm_rooted _ (by simp)
  rw [pathSegs, pathSegsAux_append_sep, pathSegs_single hbs]
  exact allSimpleSegs_append_singleton hrs hb

/-- Key compositional fact: appending a simple base name `bb` to a cleaned
directory `dd` with `Join` produces a path whose `Dir` is `dd` back again
and whose `Base` is `bb`. -/
theorem goJoin_dir_base (dd bb : List Char) (hd : CleanDirShape dd)
    (hb : isSimpleSeg bb = true) (hbs : '/' ∉ bb) :
    goDirList (goJoinList dd bb) = dd ∧ goBaseList (goJoinList dd bb) = bb := by
  have hbb : bb ≠ [] := isSimpleSeg_ne_nil hb
  rcases hd with rfl | rfl | ⟨hdne, hds⟩ | ⟨r, rfl, hrne, hrs⟩
  · rw [goJoinList_dot bb hb hbs]
    constructor
    · unfold goDirList
      rw [dirPart_no_sep _ hbs]
      rfl
    · exact goBaseList_no_sep _ hbs hbb
  · rw [goJoinList_slash bb hb hbs]
    constructor
    · unfold goDirList
      have : ('/' : Char) :: bb = [] ++ '/' :: bb := rfl
      rw [this, dirPart_append [] bb hbs]
      rfl
    · have : ('/' : Char) :: bb = [] ++ '/' :: bb := rfl
      rw [this]
      exact goBaseList_append [] bb hbs hbb
  · rw [goJoinList_norm_rel dd bb hdne hds hb hbs]
    constructor
    · unfold goDirList
      rw [dirPart_append dd bb hbs]
      exact goCleanList_norm_rel_trailing dd hdne hds
    · exact goBaseList_append dd bb hbs hbb
  · rw [goJoinList_norm_rooted r bb hrne hrs hb hbs]
    constructor
    · unfold goDirList
      have h1 : ('/' :: r) ++ '/' :: bb = ('/' :: r) ++ '/' :: bb := rfl
      rw [dirPart_append ('/' :: r) bb hbs]
      have h2 : ('/' :: r) ++ ['/'] = '/' :: r ++ ['/'] := rfl
      rw [h2]
      exact goCleanList_norm_rooted_trailing r hrne hrs
    · exact goBaseList_append ('/' :: r) bb hbs hbb

theorem joinSegs_ne_nil_of_first {s₁ : List Char} {S : List (List Char)}
    (h : s₁ ≠ []) : joinSegs (s₁ :: S) ≠ [] := by
  cases S with
  | nil => simpa [joinSegs] using h
  | cons s₂ S' =>
    rw [joinSegs_cons_of_ne_nil _ _ (by simp)]
    exact fun hc => h (List.append_eq_nil.mp hc).1

/-- Decomposition of a canonical relative path: either a single element
(no separator) or a canonical directory part, a separator, and a final
simple element. -/
theorem norm_decomp (r : List Char) (hrs : allSimpleSegs (pathSegs r) = true) :
    ('/' ∉ r ∧ dirPart r = []) ∨
    (∃ ds b, r = ds ++ '/' :: b ∧ '/' ∉ b ∧ isSimpleSeg b = true ∧ ds ≠ [] ∧
      allSimpleSegs (pathSegs ds) = true ∧ dirPart r = ds ++ ['/']) := by
  rcases List.eq_nil_or_concat' (pathSegs r) with hnil | ⟨S, b, hSb⟩
  · exact absurd hnil (pathSegsAux_ne_nil _ _)
  have hr : r = joinSegs (S ++ [b]) := by
    conv_lhs => rw [← joinSegs_pathSegs r, hSb]
  have hb_mem : b ∈ pathSegs r := by rw [hSb]; simp
  have hb_ns : '/' ∉ b := pathSegs_no_slash r b hb_mem
  have hsplit : allSimpleSegs S = true ∧ isSimpleSeg b = true := by
    rw [hSb] at hrs
    simpa [allSimpleSegs, List.all_append] using hrs
  cases S with
  | nil =>
    left
    have hrb : r = b := by simpa [joinSegs] using hr
    subst hrb
    exact ⟨hb_ns, dirPart_no_sep _ hb_ns⟩
  | cons s₁ S' =>
    right
    have hs₁_mem : s₁ ∈ pathSegs r := by rw [hSb]; simp
    have hs₁_ns : '/' ∉ s₁ := pathSegs_no_slash r s₁ hs₁_mem
    have hs₁_ne : s₁ ≠ [] := by
      have := hsplit.1
      simp only [allSimpleSegs, List.all_cons, Bool.and_eq_true] at this
      exact isSimpleSeg_ne_nil this.1
    have hds_ne : joinSegs (s₁ :: S') ≠ [] := joinSegs_ne_nil_of_first hs₁_ne
    have hS_ns : ∀ seg ∈ s₁ :: S', '/' ∉ seg := fun seg hm =>
      pathSegs_no_slash r seg (by rw [hSb]; exact List.mem_append_left _ hm)
    have hsegs_ds : pathSegs (joinSegs (s₁ :: S')) = s₁ :: S' :=
      pathSegs_joinSegs _ hS_ns (by simp)
    have hr' : r = joinSegs (s₁ :: S') ++ '/' :: b := by
      rw [hr, joinSegs_concat _ _ (by simp)]
    refine ⟨joinSegs (s₁ :: S'), b, hr', hb_ns, hsplit.2, hds_ne, ?_, ?_⟩
    · rw [hsegs_ds]; exact hsplit.1
    · rw [hr']; exact dirPart_append _ _ hb_ns

theorem goCleanList_slash : goCleanList ['/'] = ['/'] := by decide

theorem goDirList_shape_of_norm (cs : List Char) (h : NormPathL cs = true) :
    CleanDirShape (goDirList cs) := by
  cases cs with
  | nil => simp [NormPathL] at h
  | cons c rest =>
    by_cases hc : c = '/'
    · subst hc
      by_cases hrne : rest = []
      · subst hrne; simp [NormPathL] at h
      have hrs : allSimpleSegs (pathSegs rest) = true := by
        simpa [NormPathL, hrne] using h
      rcases norm_decomp rest hrs with ⟨hns, _⟩ | ⟨ds, b, hr, hbns, _, hdsne, hdss, _⟩
      · right; left
        unfold goDirList
        have h1 : ('/' : Char) :: rest = [] ++ '/' :: rest := rfl
        rw [h1, dirPart_append [] rest hns]
        exact goCleanList_slash
      · right; right; right
        refine ⟨ds, ?_, hdsne, hdss⟩
        unfold goDirList
        have h1 : ('/' : Char) :: rest = ('/' :: ds) ++ '/' :: b := by rw [hr]; rfl
        rw [h1, dirPart_append ('/' :: ds) b hbns]
        have h2 : ('/' :: ds) ++ ['/'] = '/' :: ds ++ ['/'] := rfl
        rw [h2]
        exact goCleanList_norm_rooted_trailing ds hdsne hdss
    · have hrs : allSimpleSegs (pathSegs (c :: rest)) = true := by
        simpa [NormPathL, hc] using h
      rcases norm_decomp (c :: rest) hrs with ⟨hns, hdp⟩ | ⟨ds, b, hr, hbns, _, hdsne, hdss, hdp⟩
      · left
        unfold goDirList
        rw [hdp]
        rfl
      · right; right; left
        have hgd : goDirList (c :: rest) = ds := by
          unfold goDirList
          rw [hdp]
          exact goCleanList_norm_rel_trailing ds hdsne hdss
        rw [hgd]
        exact ⟨hdsne, hdss⟩

/-- String-level consequence: on a canonical source path, the computed
target path keeps the directory and carries the formatted-name-plus-
extension base name. -/
theorem newFilePathFor_dir_base (p : String) (t : GoTime) (h : isNormPath p = true) :
    goDir (newFilePathFor p t) = goDir p ∧
    goBase (newFilePathFor p t) = String.mk (goFormatFileName t) ++ goExt p := by
  have hext : '/' ∉ goExtList p.data := goExtList_no_slash p.data
  have hb := goFormatFileName_base_simple t (goExtList p.data) hext
  have hshape := goDirList_shape_of_norm p.data h
  have hmain := goJoin_dir_base (goDirList p.data)
    (goFormatFileName t ++ goExtList p.data) hshape hb.1 hb.2
  have hdata : (newFilePathFor p t).data =
      goJoinList (goDirList p.data) (goFormatFileName t ++ goExtList p.data) := by
    show goJoinList (goDir p).data (String.mk (goFormatFileName t) ++ goExt p).data = _
    rw [String.data_append]
    rfl
  constructor
  · show String.mk (goDirList (newFilePathFor p t).data) = goDir p
    rw [hdata, hmain.1]
    rfl
  · show String.mk (goBaseList (newFilePathFor p t).data) = _
    rw [hdata, hmain.2]
    apply String.ext
    rw [String.data_append]
    rfl

/-! ## Shared concrete fixtures for the claim theorems -/

def fsmAllAbsent : FsModel := ⟨fun _ => .notFound, fun _ _ => false⟩

def fsmAllPresent : FsModel := ⟨fun _ => .found, fun _ _ => false⟩

def exifSubSec : Exif := ⟨"", "2023:05:01 10:00:00.250+00:00", "", ""⟩

def exifCreate : Exif := ⟨"", "", "2023:05:01 10:00:00", "+08:00"⟩

/-! ## Claim C1 -/

/-- C1: the spec says an empty response array is a protocol error for that
request, with the worker left in a well-defined state.  The code instead
indexes `exifs[0]` without a length check (line 213 of `main.go`), which on
an empty decoded array is a Go runtime panic, not a handled error: the
worker-iteration outcome is the panic outcome, and the worker run stops at
the panicking task having produced no error value.  This evaluates the
embedded code at the failing input (a response payload decoding to `[]`). -/
theorem c1_empty_array_panics :
    (workerStep ⟨false, false⟩ fsmAllAbsent "a.jpg" (.records []) 0).outcome
        = .panicked ∧
    (workerStep ⟨false, false⟩ fsmAllAbsent "a.jpg" (.records []) 0).loggedErrors = [] ∧
    workerRun ⟨false, false⟩ fsmAllAbsent
        [("a.jpg", .records [], 0), ("b.jpg", .records [exifSubSec], 0)] =
      ⟨1, [], [], [], .panicked⟩ :=
  ⟨rfl, rfl, rfl⟩

/-! ## Claim C2 -/

/-- C2 counterexample: a worker that hits a malformed-JSON payload does
continue dequeuing further file tasks, contrary to the claim that the
session is treated as fatal.  After a malformed payload for the first task,
the worker consumes the second task as well (its dry-run report line is
produced) and never leaves its loop. -/
theorem c2_counterexample_malformed_json_continues :
    (workerRun ⟨true, false⟩ fsmAllAbsent
        [("a.jpg", .malformedJSON, 0), ("b.jpg", .records [exifSubSec], 0)]).consumed = 2 ∧
    (workerRun ⟨true, false⟩ fsmAllAbsent
        [("a.jpg", .malformedJSON, 0), ("b.jpg", .records [exifSubSec], 0)]).ending
        = .finishedAll ∧
    (workerStep ⟨true, false⟩ fsmAllAbsent "a.jpg" .malformedJSON 0).outcome ≠ .exitLoop :=
  ⟨rfl, rfl, by decide⟩

/-- C2 amended: premature end-of-stream while awaiting the sentinel (and a
read error) are fatal to the owning worker only — the worker leaves its loop
after that task (running its deferred session shutdown) — while a
malformed-JSON payload is handled as a per-file error: it is logged and the
worker continues with the remaining tasks unchanged. -/
theorem c2_amended_eof_fatal_malformed_per_file (cfg : Config) (fsm : FsModel)
    (p : String) (j : Nat) (rest : List (String × ExifResponse × Nat)) :
    workerRun cfg fsm ((p, .prematureEOF, j) :: rest) =
      ⟨1, [], [], ["exiftool returned EOF prematurely"], .exitedLoop⟩ ∧
    workerRun cfg fsm ((p, .readError, j) :: rest) =
      ⟨1, [], [], ["read from exiftool stdout failed"], .exitedLoop⟩ ∧
    workerRun cfg fsm ((p, .malformedJSON, j) :: rest) =
      ⟨(workerRun cfg fsm rest).consumed + 1, (workerRun cfg fsm rest).renameCalls,
       (workerRun cfg fsm rest).outputLines,
       "json unmarshal error" :: (workerRun cfg fsm rest).loggedErrors,
       (workerRun cfg fsm rest).ending⟩ := by
  refine ⟨rfl, rfl, ?_⟩
  show workerRun cfg fsm ((p, .malformedJSON, j) :: rest) = _
  simp [workerRun, workerStep]

/-! ## Claim C3 -/

/-- C3 counterexample: in replace-if-exists mode, a file already carrying
its canonical name is renamed onto itself — `os.Rename(source, source)` is
called (line 242 of `main.go`), so an executed rename does have a target
equal to its source. -/
theorem c3_counterexample_replace_self_rename :
    (workerStep ⟨false, true⟩ fsmAllPresent "2023-05-01T100000.250+0000.jpg"
        (.records [exifSubSec]) 0).renameCalls =
      [("2023-05-01T100000.250+0000.jpg", "2023-05-01T100000.250+0000.jpg")] := by
  decide

/-- C3 amended: when the computed canonical name equals the file's current
name, the outcome depends on the mode.  In non-dry-run, non-replace mode the
target-existence check (line 250) sees the source file itself, so the
engine skips and never calls rename; but in replace-if-exists mode the code
calls `os.Rename(source, source)` rather than producing a no-op decision. -/
theorem c3_amended_self_target (cfg : Config) (fsm : FsModel) (p : String)
    (exif : Exif) (j : Nat) (t : GoTime)
    (hdry : cfg.dryRun = false)
    (hres : resolveCreationTime exif j = .ok t)
    (heq : newFilePathFor p t = p)
    (hstat : fsm.stat p = .found) :
    (cfg.replaceIfExists = false →
      (workerStep cfg fsm p (.records [exif]) j).renameCalls = [] ∧
      (workerStep cfg fsm p (.records [exif]) j).outcome = .continueLoop) ∧
    (cfg.replaceIfExists = true →
      (workerStep cfg fsm p (.records [exif]) j).renameCalls = [(p, p)]) := by
  constructor
  · intro hrep
    constructor
    · simp [workerStep, hres, hdry, hrep, heq, hstat]
    · simp [workerStep, hres, hdry, hrep, heq, hstat]
  · intro hrep
    cases hrf : fsm.renameFails p p with
    | true => simp [workerStep, hres, hdry, hrep, heq, hrf]
    | false => simp [workerStep, hres, hdry, hrep, heq, hrf]

/-- Witness for the amended C3 theorem at a concrete already-canonical
file in replace-if-exists mode. -/
theorem c3_amended_self_target_witness :
    resolveCreationTime exifSubSec 0 = .ok ⟨2023, 5, 1, 10, 0, 0, 250, 0⟩ ∧
    newFilePathFor "2023-05-01T100000.250+0000.jpg" ⟨2023, 5, 1, 10, 0, 0, 250, 0⟩
      = "2023-05-01T100000.250+0000.jpg" ∧
    fsmAllPresent.stat "2023-05-01T100000.250+0000.jpg" = .found ∧
    (workerStep ⟨false, true⟩ fsmAllPresent "2023-05-01T100000.250+0000.jpg"
        (.records [exifSubSec]) 0).renameCalls =
      [("2023-05-01T100000.250+0000.jpg", "2023-05-01T100000.250+0000.jpg")] :=
  ⟨rfl, by decide, rfl,
    (c3_amended_self_target ⟨false, true⟩ fsmAllPresent
      "2023-05-01T100000.250+0000.jpg" exifSubSec 0 ⟨2023, 5, 1, 10, 0, 0, 250, 0⟩
      rfl rfl (by decide) rfl).2 rfl⟩

/-! ## Claim C4 -/

/-- C4: the capture instant is resolved in priority order: a non-empty
sub-second original timestamp is parsed with the sub-second layout and used
as-is; otherwise a non-empty create-date concatenated with the timezone
field is parsed with the whole-second layout and the jitter (the
`rand.IntN(1000)` milliseconds) is added; otherwise the file fails with the
"unable to fetch file creation time" per-file error and the worker
continues with the next task. -/
theorem c4_timestamp_priority (exif : Exif) (j : Nat) :
    (exif.SubSecDateTimeOriginal ≠ "" →
      ∀ t, goParseSubSecDateTime exif.SubSecDateTimeOriginal = some t →
        resolveCreationTime exif j = .ok t) ∧
    (exif.SubSecDateTimeOriginal = "" → exif.CreateDate ≠ "" →
      ∀ t, goParseCreateDateWithZone (exif.CreateDate ++ exif.TimeZone) = some t →
        resolveCreationTime exif j = .ok (goAddMillis t j)) ∧
    (exif.SubSecDateTimeOriginal = "" → exif.CreateDate = "" →
      resolveCreationTime exif j = .error "unable to fetch file creation time" ∧
      ∀ cfg fsm p, (workerStep cfg fsm p (.records [exif]) j).outcome = .continueLoop) := by
  refine ⟨?_, ?_, ?_⟩
  · intro h t ht
    unfold resolveCreationTime
    rw [if_pos h, ht]
  · intro h1 h2 t ht
    unfold resolveCreationTime
    rw [if_neg (fun hh => hh h1), if_pos h2, ht]
  · intro h1 h2
    have hres : resolveCreationTime exif j = .error "unable to fetch file creation time" := by
      unfold resolveCreationTime
      rw [if_neg (fun hh => hh h1), if_neg (fun hh => hh h2)]
    refine ⟨hres, ?_⟩
    intro cfg fsm p
    simp [workerStep, hres]

/-- Witness for C4 on the create-date branch: the create-date plus timezone
parses with the whole-second layout and the 250 ms jitter is added. -/
theorem c4_timestamp_priority_witness :
    exifSubSec.SubSecDateTimeOriginal ≠ "" ∧
    resolveCreationTime exifSubSec 7 = .ok ⟨2023, 5, 1, 10, 0, 0, 250, 0⟩ ∧
    exifCreate.SubSecDateTimeOriginal = "" ∧ exifCreate.CreateDate ≠ "" ∧
    resolveCreationTime exifCreate 250 = .ok ⟨2023, 5, 1, 10, 0, 0, 250, 480⟩ ∧
    resolveCreationTime ⟨"", "", "", ""⟩ 3 = .error "unable to fetch file creation time" ∧
    (workerStep ⟨false, false⟩ fsmAllAbsent "a.jpg" (.records [⟨"", "", "", ""⟩]) 3).outcome
      = .continueLoop := by
  refine ⟨by decide, ?_, rfl, by decide, ?_, ?_, ?_⟩
  · have h := (c4_timestamp_priority exifSubSec 7).1 (by decide)
      ⟨2023, 5, 1, 10, 0, 0, 250, 0⟩ (by decide)
    exact h
  · have h := (c4_timestamp_priority exifCreate 250).2.1 rfl (by decide)
      ⟨2023, 5, 1, 10, 0, 0, 0, 480⟩ (by decide)
    exact h.trans (congrArg Except.ok (by decide))
  · exact ((c4_timestamp_priority ⟨"", "", "", ""⟩ 3).2.2 rfl rfl).1
  · exact ((c4_timestamp_priority ⟨"", "", "", ""⟩ 3).2.2 rfl rfl).2 _ _ _

/-! ## Claim C5 -/

/-- C5: for a metadata record with a valid sub-second original timestamp
the resolution result is the parsed instant, independent of the jitter
input (deterministic), and on a canonical source path the computed target
keeps the directory unchanged while its base name is the formatted instant
plus the original extension. -/
theorem c5_subsec_target_deterministic (exif : Exif) (p : String) (j j' : Nat)
    (t : GoTime)
    (hss : exif.SubSecDateTimeOriginal ≠ "")
    (hparse : goParseSubSecDateTime exif.SubSecDateTimeOriginal = some t) :
    resolveCreationTime exif j = .ok t ∧
    resolveCreationTime exif j = resolveCreationTime exif j' ∧
    (isNormPath p = true →
      goDir (newFilePathFor p t) = goDir p ∧
      goBase (newFilePathFor p t) = String.mk (goFormatFileName t) ++ goExt p) := by
  have h1 : resolveCreationTime exif j = .ok t := by
    unfold resolveCreationTime
    rw [if_pos hss, hparse]
  have h2 : resolveCreationTime exif j' = .ok t := by
    unfold resolveCreationTime
    rw [if_pos hss, hparse]
  exact ⟨h1, h1.trans h2.symm, fun hn => newFilePathFor_dir_base p t hn⟩

/-- Witness for C5 at the specification's own scenario: `a.jpg` with
SubSecDateTimeOriginal `2023:05:01 10:00:00.250+00:00` yields target base
name `2023-05-01T100000.250+0000.jpg` in the unchanged directory. -/
theorem c5_subsec_target_witness :
    isNormPath "a.jpg" = true ∧
    goDir (newFilePathFor "a.jpg" ⟨2023, 5, 1, 10, 0, 0, 250, 0⟩) = goDir "a.jpg" ∧
    goBase (newFilePathFor "a.jpg" ⟨2023, 5, 1, 10, 0, 0, 250, 0⟩)
      = String.mk (goFormatFileName ⟨2023, 5, 1, 10, 0, 0, 250, 0⟩) ++ goExt "a.jpg" ∧
    newFilePathFor "a.jpg" ⟨2023, 5, 1, 10, 0, 0, 250, 0⟩
      = "2023-05-01T100000.250+0000.jpg" := by
  have h := (c5_subsec_target_deterministic exifSubSec "a.jpg" 0 999
    ⟨2023, 5, 1, 10, 0, 0, 250, 0⟩ (by decide) (by decide)).2.2 (by decide)
  exact ⟨by decide, h.1, h.2, by decide⟩

/-! ## Claim C6 -/

/-- C6: with the dry-run flag set, no worker iteration ever calls
`os.Rename` (regardless of the response, the replace-if-exists flag and the
filesystem state), the whole worker run performs no rename, and a file whose
metadata resolves to a creation time produces exactly the one report line
with source path, computed target path and marshalled metadata. -/
theorem c6_dry_run_reports_only (cfg : Config) (fsm : FsModel)
    (hdry : cfg.dryRun = true) :
    (∀ p resp j, (workerStep cfg fsm p resp j).renameCalls = []) ∧
    (∀ tasks, (workerRun cfg fsm tasks).renameCalls = []) ∧
    (∀ p exif exifs j t, resolveCreationTime exif j = .ok t →
      (workerStep cfg fsm p (.records (exif :: exifs)) j).outputLines =
        [dryRunLine p (newFilePathFor p t) exif]) := by
  have hstep : ∀ p resp j, (workerStep cfg fsm p resp j).renameCalls = [] := by
    intro p resp j
    unfold workerStep
    rcases resp with _ | _ | _ | _ | exifs
    · rfl
    · rfl
    · rfl
    · rfl
    · rcases exifs with _ | ⟨exif, rest⟩
      · rfl
      · rcases hres : resolveCreationTime exif j with msg | t
        · simp [hres]
        · simp [hres, hdry]
  refine ⟨hstep, ?_, ?_⟩
  · intro tasks
    induction tasks with
    | nil => rfl
    | cons task rest ih =>
      obtain ⟨p, resp, j⟩ := task
      simp only [workerRun]
      split
      · simp [hstep, ih]
      · simp [hstep]
      · simp [hstep]
  · intro p exif exifs j t hres
    simp [workerStep, hres, hdry]

/-- Witness for C6 at the specification's dry-run scenario, with the exact
output line. -/
theorem c6_dry_run_reports_only_witness :
    (Config.mk true false).dryRun = true ∧
    (workerStep ⟨true, false⟩ fsmAllAbsent "a.jpg" (.records [exifSubSec]) 0).renameCalls = [] ∧
    (workerStep ⟨true, false⟩ fsmAllAbsent "a.jpg" (.records [exifSubSec]) 0).outputLines =
      ["a.jpg => 2023-05-01T100000.250+0000.jpg \x7b\"FileSize\":\"\",\"SubSecDateTimeOriginal\":\"2023:05:01 10:00:00.250+00:00\",\"CreateDate\":\"\",\"TimeZone\":\"\"\x7d\n"] := by
  have h := c6_dry_run_reports_only ⟨true, false⟩ fsmAllAbsent rfl
  refine ⟨rfl, h.1 _ _ _, ?_⟩
  have hline := h.2.2 "a.jpg" exifSubSec [] 0 ⟨2023, 5, 1, 10, 0, 0, 250, 0⟩ rfl
  rw [hline]
  decide

/-! ## Claim C10 -/

/-- The rewrite loop writes the consumed character (possibly escaped) last,
so the builder's final rune always equals the previous input character:
the builder-based loop agrees with the single-scan reference form. -/
theorem rewriteDotsAux_eq_spec (cs : List Char) :
    ∀ out, rewriteDotsAux out cs = out ++ rewriteDotsSpec out.getLast? cs := by
  induction cs with
  | nil => intro out; simp [rewriteDotsAux, rewriteDotsSpec]
  | cons c rest ih =>
    intro out
    simp only [rewriteDotsAux, rewriteDotsSpec]
    by_cases hcond : (out.getLast? != some '\\' && c == '.' &&
        (match rest.head? with | some n => isASCIILetter n | none => false)) = true
    · rw [if_pos hcond, if_pos hcond, ih]
      rw [show out ++ ['\\', '.'] = (out ++ ['\\']) ++ ['.'] from by simp,
        List.getLast?_concat]
      simp
    · rw [if_neg hcond, if_neg hcond, ih, List.getLast?_concat]
      simp

/-- C10: `compileRegexp` compiles a pattern containing no dot completely
unchanged; otherwise it first strips a leading `./` when the pattern is
longer than two characters and then rewrites every `.` that is not preceded
by a backslash and is immediately followed by an ASCII letter into the
escaped literal `\.` (single left-to-right scan). -/
theorem c10_compileRegexp_rewrite (p : String) :
    (p.data.count '.' = 0 → compileRegexpPattern p = p) ∧
    (p.data.count '.' ≠ 0 →
      compileRegexpPattern p =
        String.mk (rewriteDotsSpec none (stripLeadingDotSlash p.data))) ∧
    (∀ rest, p.data = '.' :: '/' :: rest → rest ≠ [] →
      stripLeadingDotSlash p.data = rest) := by
  refine ⟨?_, ?_, ?_⟩
  · intro h
    unfold compileRegexpPattern
    rw [if_pos h]
  · intro h
    unfold compileRegexpPattern
    rw [if_neg h, rewriteDotsAux_eq_spec]
    rfl
  · intro rest hp hne
    rw [hp]
    simp [stripLeadingDotSlash, hne]

/-- Witness for C10 at the user pattern `.jpg`: the dot is escaped, so the
compiled pattern matches only the literal text `.jpg`. -/
theorem c10_compileRegexp_rewrite_witness :
    ".jpg".data.count '.' ≠ 0 ∧
    compileRegexpPattern ".jpg" =
      String.mk (rewriteDotsSpec none (stripLeadingDotSlash ".jpg".data)) ∧
    compileRegexpPattern ".jpg" = "\\.jpg" ∧
    compileRegexpPattern "jpegs" = "jpegs" := by
  refine ⟨by decide, (c10_compileRegexp_rewrite ".jpg").2.1 (by decide), by decide, ?_⟩
  exact (c10_compileRegexp_rewrite "jpegs").1 (by decide)

/-! ## Characterising the producer walk -/

theorem matchesAny_false_of_find?_none {pats : List (String → Bool)} {name : String}
    (h : pats.find? (fun r => r name) = none) : matchesAny pats name = false := by
  rw [matchesAny]
  rw [List.any_eq_false]
  intro r hr
  simpa using List.find?_eq_none.mp h r hr

theorem find?_pred_and_mem {α : Type} (p : α → Bool) (l : List α) (a : α)
    (h : l.find? p = some a) : p a = true ∧ a ∈ l := by
  induction l with
  | nil => simp [List.find?] at h
  | cons x xs ih =>
    rw [List.find?_cons] at h
    split at h
    · cases h
      next hpx => exact ⟨by assumption, List.mem_cons_self _ _⟩
    · obtain ⟨h1, h2⟩ := ih h
      exact ⟨h1, List.mem_cons_of_mem _ h2⟩

theorem matchesAny_true_of_find?_some {pats : List (String → Bool)} {name : String}
    {r : String → Bool} (h : pats.find? (fun r' => r' name) = some r) :
    matchesAny pats name = true := by
  rw [matchesAny, List.any_eq_true]
  obtain ⟨h1, h2⟩ := find?_pred_and_mem _ _ _ h
  exact ⟨r, h2, h1⟩

theorem simpleName_data {s : String} (h : simpleName s = true) :
    isSimpleSeg s.data = true ∧ '/' ∉ s.data := by
  simp only [simpleName, Bool.and_eq_true, decide_eq_true_eq, bne_iff_ne, ne_eq] at h
  obtain ⟨⟨⟨h1, h2⟩, h3⟩, h4⟩ := h
  have h2' : '/' ∉ s.data := by simpa using h2
  refine ⟨?_, h2'⟩
  simp only [isSimpleSeg, Bool.and_eq_true, bne_iff_ne, ne_eq, decide_eq_true_eq]
  refine ⟨⟨?_, ?_⟩, ?_⟩
  · intro hd; exact h1 (String.ext hd)
  · intro hd; exact h3 (String.ext hd)
  · intro hd; exact h4 (String.ext hd)

theorem simpleName_ne_dot {s : String} (h : simpleName s = true) : s ≠ "." := by
  simp only [simpleName, Bool.and_eq_true, decide_eq_true_eq, bne_iff_ne, ne_eq] at h
  exact h.1.2

/-- Computation `filepath.Join(".", name) = name` for a directory-entry name. -/
theorem goJoin_dot_name (n : String) (h : simpleName n = true) : goJoin "." n = n := by
  have hd := simpleName_data h
  apply String.ext
  show goJoinList ['.'] n.data = n.data
  exact goJoinList_dot _ hd.1 hd.2

mutual

/-- With an uncancelled context, the producer walk from `rel` succeeds and
appends exactly the emissions and visits described by `specEmits` and
`specVisits`. -/
theorem goWalkDir_none_spec (pats : List (String → Bool)) (recursive : Bool)
    (root : String) (node : FsNode) (rel : String) (se : List String)
    (sv : List (String × Bool)) :
    goWalkDir (producerVisit pats recursive root) ⟨se, sv, none⟩ rel node =
      (⟨se ++ (specEmits pats recursive rel node).map (fun q => goJoin root q),
        sv ++ specVisits recursive rel node, none⟩, .ok) := by
  cases node with
  | file n =>
    show producerVisit pats recursive root ⟨se, sv, none⟩ rel n false = _
    cases hfind : pats.find? (fun r => r n) with
    | none =>
      have hm := matchesAny_false_of_find?_none hfind
      simp [producerVisit, specEmits, specVisits, hfind, hm]
    | some r =>
      have hm := matchesAny_true_of_find?_some hfind
      simp [producerVisit, specEmits, specVisits, hfind, hm]
  | dir n children =>
    by_cases hskip : rel ≠ "." ∧ ¬(recursive = true)
    · have hcond : ¬(rel = "." ∨ recursive = true) := by
        push_neg
        exact ⟨hskip.1, by simpa using hskip.2⟩
      show (match producerVisit pats recursive root ⟨se, sv, none⟩ rel n true with
        | (s', WalkSignal.skipDir) => (s', WalkSignal.ok)
        | (s', WalkSignal.canceled) => (s', WalkSignal.canceled)
        | (s', WalkSignal.ok) => goWalkList (producerVisit pats recursive root) s' rel children) = _
      simp only [producerVisit, if_pos hskip]
      simp [specEmits, specVisits, hcond]
    · have hcond : rel = "." ∨ recursive = true := by
        by_contra hc
        push_neg at hc
        exact hskip ⟨hc.1, by simpa using hc.2⟩
      show (match producerVisit pats recursive root ⟨se, sv, none⟩ rel n true with
        | (s', WalkSignal.skipDir) => (s', WalkSignal.ok)
        | (s', WalkSignal.canceled) => (s', WalkSignal.canceled)
        | (s', WalkSignal.ok) => goWalkList (producerVisit pats recursive root) s' rel children) = _
      simp only [producerVisit, if_neg hskip]
      show goWalkList (producerVisit pats recursive root)
        ⟨se, sv ++ [(rel, true)], none⟩ rel children = _
      rw [goWalkList_none_spec pats recursive root children rel (se)
        (sv ++ [(rel, true)])]
      simp [specEmits, specVisits, hcond]

theorem goWalkList_none_spec (pats : List (String → Bool)) (recursive : Bool)
    (root : String) (children : List FsNode) (dirPath : String) (se : List String)
    (sv : List (String × Bool)) :
    goWalkList (producerVisit pats recursive root) ⟨se, sv, none⟩ dirPath children =
      (⟨se ++ (specEmitsList pats recursive dirPath children).map (fun q => goJoin root q),
        sv ++ specVisitsList recursive dirPath children, none⟩, .ok) := by
  cases children with
  | nil => simp [goWalkList, specEmitsList, specVisitsList]
  | cons c rest =>
    show (match goWalkDir (producerVisit pats recursive root) ⟨se, sv, none⟩
        (goJoin dirPath c.name) c with
      | (s', WalkSignal.skipDir) => (s', WalkSignal.ok)
      | (s', WalkSignal.canceled) => (s', WalkSignal.canceled)
      | (s', WalkSignal.ok) => goWalkList (producerVisit pats recursive root) s' dirPath rest) = _
    rw [goWalkDir_none_spec pats recursive root c (goJoin dirPath c.name) se sv]
    show goWalkList (producerVisit pats recursive root)
      ⟨se ++ (specEmits pats recursive (goJoin dirPath c.name) c).map (fun q => goJoin root q),
       sv ++ specVisits recursive (goJoin dirPath c.name) c, none⟩ dirPath rest = _
    rw [goWalkList_none_spec pats recursive root rest dirPath _ _]
    simp [specEmitsList, specVisitsList]

end

mutual

/-- In recursive mode `specEmits` is exactly the claim-side collection of
all matching files, at every depth. -/
theorem specEmits_recursive_eq (pats : List (String → Bool)) (rel : String)
    (node : FsNode) :
    specEmits pats true rel node = allMatchingFiles pats rel node := by
  cases node with
  | file n => rfl
  | dir n children =>
    show (if rel = "." ∨ true = true then specEmitsList pats true rel children else [])
        = allMatchingFilesList pats rel children
    rw [if_pos (Or.inr rfl)]
    exact specEmitsList_recursive_eq pats rel children

theorem specEmitsList_recursive_eq (pats : List (String → Bool)) (dirPath : String)
    (children : List FsNode) :
    specEmitsList pats true dirPath children = allMatchingFilesList pats dirPath children := by
  cases children with
  | nil => rfl
  | cons c rest =>
    show specEmits pats true (goJoin dirPath c.name) c ++
        specEmitsList pats true dirPath rest = _
    rw [specEmits_recursive_eq pats (goJoin dirPath c.name) c,
      specEmitsList_recursive_eq pats dirPath rest]
    rfl

end

theorem specEmitsList_flat (pats : List (String → Bool)) (children : List FsNode)
    (h : children.all (fun c => simpleName c.name) = true) :
    specEmitsList pats false "." children =
      children.filterMap (fun c => match c with
        | .file n => if matchesAny pats n then some n else none
        | .dir _ _ => none) := by
  induction children with
  | nil => rfl
  | cons c rest ih =>
    simp only [List.all_cons, Bool.and_eq_true] at h
    obtain ⟨hc, hrest⟩ := h
    show specEmits pats false (goJoin "." c.name) c ++
        specEmitsList pats false "." rest = _
    rw [goJoin_dot_name c.name hc, ih hrest]
    cases c with
    | file n =>
      show (if matchesAny pats n then [n] else []) ++ _ = _
      simp only [List.filterMap_cons]
      cases hm : matchesAny pats n with
      | true => simp [hm]
      | false => simp [hm]
    | dir n ch =>
      show (if (n : String) = "." ∨ false = true then specEmitsList pats false n ch else [])
          ++ _ = _
      rw [if_neg (by
        rintro (hd | hf)
        · exact simpleName_ne_dot hc hd
        · simp at hf)]
      simp [List.filterMap_cons]

theorem specVisitsList_flat (children : List FsNode)
    (h : children.all (fun c => simpleName c.name) = true) :
    specVisitsList false "." children =
      children.map (fun c => (c.name, c.isDir)) := by
  induction children with
  | nil => rfl
  | cons c rest ih =>
    simp only [List.all_cons, Bool.and_eq_true] at h
    obtain ⟨hc, hrest⟩ := h
    show specVisits false (goJoin "." c.name) c ++ specVisitsList false "." rest = _
    rw [goJoin_dot_name c.name hc, ih hrest]
    cases c with
    | file n => rfl
    | dir n ch =>
      show ((n, true) :: (if (n : String) = "." ∨ false = true
          then specVisitsList false n ch else [])) ++ _ = _
      rw [if_neg (by
        rintro (hd | hf)
        · exact simpleName_ne_dot hc hd
        · simp at hf)]
      rfl

mutual

/-- With a cancellation budget of `k` emissions: if the subtree would emit
at most `k` tasks the walk completes normally, consuming that much budget;
otherwise the walk emits exactly the first `k` tasks and aborts with the
cancellation error. -/
theorem goWalkDir_budget_spec (pats : List (String → Bool)) (recursive : Bool)
    (root : String) (node : FsNode) (rel : String) (se : List String)
    (sv : List (String × Bool)) (k : Nat) :
    ((specEmits pats recursive rel node).length ≤ k →
      goWalkDir (producerVisit pats recursive root) ⟨se, sv, some k⟩ rel node =
        (⟨se ++ (specEmits pats recursive rel node).map (fun q => goJoin root q),
          sv ++ specVisits recursive rel node,
          some (k - (specEmits pats recursive rel node).length)⟩, .ok)) ∧
    (k < (specEmits pats recursive rel node).length →
      (goWalkDir (producerVisit pats recursive root) ⟨se, sv, some k⟩ rel node).1.emitted =
        se ++ ((specEmits pats recursive rel node).take k).map (fun q => goJoin root q) ∧
      (goWalkDir (producerVisit pats recursive root) ⟨se, sv, some k⟩ rel node).2 = .canceled) := by
  cases node with
  | file n =>
    cases hfind : pats.find? (fun r => r n) with
    | none =>
      have hm := matchesAny_false_of_find?_none hfind
      constructor
      · intro _
        show producerVisit pats recursive root ⟨se, sv, some k⟩ rel n false = _
        simp [producerVisit, specEmits, specVisits, hfind, hm]
      · intro hk
        simp [specEmits, hm] at hk
    | some r =>
      have hm := matchesAny_true_of_find?_some hfind
      constructor
      · intro hk
        simp only [specEmits, hm, if_true, List.length_singleton] at hk ⊢
        cases k with
        | zero => omega
        | succ k' =>
          show producerVisit pats recursive root ⟨se, sv, some (k' + 1)⟩ rel n false = _
          simp [producerVisit, hfind, specVisits]
      · intro hk
        simp only [specEmits, hm, if_true, List.length_singleton] at hk ⊢
        have hk0 : k = 0 := by omega
        subst hk0
        constructor
        · show (producerVisit pats recursive root ⟨se, sv, some 0⟩ rel n false).1.emitted = _
          simp [producerVisit, hfind]
        · show (producerVisit pats recursive root ⟨se, sv, some 0⟩ rel n false).2 = _
          simp [producerVisit, hfind]
  | dir n children =>
    by_cases hskip : rel ≠ "." ∧ ¬(recursive = true)
    · have hcond : ¬(rel = "." ∨ recursive = true) := by
        push_neg
        exact ⟨hskip.1, by simpa using hskip.2⟩
      constructor
      · intro _
        show (match producerVisit pats recursive root ⟨se, sv, some k⟩ rel n true with
          | (s', WalkSignal.skipDir) => (s', WalkSignal.ok)
          | (s', WalkSignal.canceled) => (s', WalkSignal.canceled)
          | (s', WalkSignal.ok) => goWalkList (producerVisit pats recursive root) s' rel children) = _
        simp only [producerVisit, if_pos hskip]
        simp [specEmits, specVisits, hcond]
      · intro hk
        simp [specEmits, hcond] at hk
    · have hcond : rel = "." ∨ recursive = true := by
        by_contra hc
        push_neg at hc
        exact hskip ⟨hc.1, by simpa using hc.2⟩
      have hlist := goWalkList_budget_spec pats recursive root children rel se
        (sv ++ [(rel, true)]) k
      have hred : goWalkDir (producerVisit pats recursive root) ⟨se, sv, some k⟩ rel
          (.dir n children) =
          goWalkList (producerVisit pats recursive root) ⟨se, sv ++ [(rel, true)], some k⟩
            rel children := by
        show (match producerVisit pats recursive root ⟨se, sv, some k⟩ rel n true with
          | (s', WalkSignal.skipDir) => (s', WalkSignal.ok)
          | (s', WalkSignal.canceled) => (s', WalkSignal.canceled)
          | (s', WalkSignal.ok) => goWalkList (producerVisit pats recursive root) s' rel children) = _
        simp only [producerVisit, if_neg hskip]
        rfl
      constructor
      · intro hk
        rw [hred]
        simp only [specEmits, specVisits, if_pos hcond] at hk ⊢
        rw [hlist.1 hk]
        simp
      · intro hk
        rw [hred]
        simp only [specEmits, specVisits, if_pos hcond] at hk ⊢
        exact hlist.2 hk

theorem goWalkList_budget_spec (pats : List (String → Bool)) (recursive : Bool)
    (root : String) (children : List FsNode) (dirPath : String) (se : List String)
    (sv : List (String × Bool)) (k : Nat) :
    ((specEmitsList pats recursive dirPath children).length ≤ k →
      goWalkList (producerVisit pats recursive root) ⟨se, sv, some k⟩ dirPath children =
        (⟨se ++ (specEmitsList pats recursive dirPath children).map (fun q => goJoin root q),
          sv ++ specVisitsList recursive dirPath children,
          some (k - (specEmitsList pats recursive dirPath children).length)⟩, .ok)) ∧
    (k < (specEmitsList pats recursive dirPath children).length →
      (goWalkList (producerVisit pats recursive root) ⟨se, sv, some k⟩ dirPath children).1.emitted =
        se ++ ((specEmitsList pats recursive dirPath children).take k).map (fun q => goJoin root q) ∧
      (goWalkList (producerVisit pats recursive root) ⟨se, sv, some k⟩ dirPath children).2 = .canceled) := by
  cases children with
  | nil =>
    constructor
    · intro _
      simp [goWalkList, specEmitsList, specVisitsList]
    · intro hk
      simp [specEmitsList] at hk
  | cons c rest =>
    have hchild := goWalkDir_budget_spec pats recursive root c (goJoin dirPath c.name) se sv k
    by_cases h₁ : (specEmits pats recursive (goJoin dirPath c.name) c).length ≤ k
    · have hceq := hchild.1 h₁
      have hred : goWalkList (producerVisit pats recursive root) ⟨se, sv, some k⟩ dirPath
          (c :: rest) =
          goWalkList (producerVisit pats recursive root)
            ⟨se ++ (specEmits pats recursive (goJoin dirPath c.name) c).map (fun q => goJoin root q),
             sv ++ specVisits recursive (goJoin dirPath c.name) c,
             some (k - (specEmits pats recursive (goJoin dirPath c.name) c).length)⟩
            dirPath rest := by
        show (match goWalkDir (producerVisit pats recursive root) ⟨se, sv, some k⟩
            (goJoin dirPath c.name) c with
          | (s', WalkSignal.skipDir) => (s', WalkSignal.ok)
          | (s', WalkSignal.canceled) => (s', WalkSignal.canceled)
          | (s', WalkSignal.ok) => goWalkList (producerVisit pats recursive root) s' dirPath rest) = _
        rw [hceq]
      have hrest := goWalkList_budget_spec pats recursive root rest dirPath
        (se ++ (specEmits pats recursive (goJoin dirPath c.name) c).map (fun q => goJoin root q))
        (sv ++ specVisits recursive (goJoin dirPath c.name) c)
        (k - (specEmits pats recursive (goJoin dirPath c.name) c).length)
      constructor
      · intro hk
        simp only [specEmitsList, List.length_append] at hk
        have hk₂ : (specEmitsList pats recursive dirPath rest).length ≤
            k - (specEmits pats recursive (goJoin dirPath c.name) c).length := by omega
        rw [hred, hrest.1 hk₂]
        simp only [specEmitsList, specVisitsList, List.map_append, List.append_assoc,
          List.length_append, Nat.sub_sub]
      · intro hk
        simp only [specEmitsList, List.length_append] at hk
        by_cases hk₂ : (specEmitsList pats recursive dirPath rest).length ≤
            k - (specEmits pats recursive (goJoin dirPath c.name) c).length
        · omega
        · have hk₂' : k - (specEmits pats recursive (goJoin dirPath c.name) c).length <
              (specEmitsList pats recursive dirPath rest).length := by omega
          have hres := hrest.2 hk₂'
          rw [hred]
          refine ⟨?_, hres.2⟩
          rw [hres.1]
          simp only [specEmitsList]
          rw [List.take_append_eq_append_take, List.take_of_length_le h₁,
            List.map_append, List.append_assoc]
    · have hk₁ : k < (specEmits pats recursive (goJoin dirPath c.name) c).length := by omega
      have hc2 := hchild.2 hk₁
      rcases hres : goWalkDir (producerVisit pats recursive root) ⟨se, sv, some k⟩
          (goJoin dirPath c.name) c with ⟨s₁, sig₁⟩
      rw [hres] at hc2
      have hsig : sig₁ = .canceled := hc2.2
      subst hsig
      have hred : goWalkList (producerVisit pats recursive root) ⟨se, sv, some k⟩ dirPath
          (c :: rest) = (s₁, .canceled) := by
        show (match goWalkDir (producerVisit pats recursive root) ⟨se, sv, some k⟩
            (goJoin dirPath c.name) c with
          | (s', WalkSignal.skipDir) => (s', WalkSignal.ok)
          | (s', WalkSignal.canceled) => (s', WalkSignal.canceled)
          | (s', WalkSignal.ok) => goWalkList (producerVisit pats recursive root) s' dirPath rest) = _
        rw [hres]
      constructor
      · intro hk
        simp only [specEmitsList, List.length_append] at hk
        omega
      · intro _
        rw [hred]
        refine ⟨?_, rfl⟩
        show s₁.emitted = _
        rw [hc2.1]
        simp only [specEmitsList]
        rw [List.take_append_of_le_length (Nat.le_of_lt hk₁)]

end

/-! ## Claims C7, C8, C9 -/

def patsJpg : List (String → Bool) := [fun n => n == "a.jpg" || n == "b.jpg"]

def treeFlat : FsNode := .dir "r" [.file "a.jpg"]

def treeNested : FsNode := .dir "r" [.file "a.jpg", .dir "sub" [.file "b.jpg"]]

/-- C7 counterexample: in flat (non-recursive) mode, cancellation observed
while the producer is blocked emitting does not make the walk return
successfully — the walk aborts with the cancellation error, exactly as in
recursive mode (lines 283-289 of `main.go` return `ctx.Err()` in both
modes). -/
theorem c7_counterexample_flat_cancellation :
    (runProducer patsJpg false "/r" treeFlat (some 0)).2 = .canceled ∧
    (runProducer patsJpg false "/r" treeFlat (some 0)).2 ≠ .ok ∧
    (runProducer patsJpg false "/r" treeFlat (some 0)).1.emitted = [] ∧
    (runProducer patsJpg true "/r" treeFlat (some 0)).2 = .canceled :=
  ⟨rfl, by decide, rfl, rfl⟩

/-- C7 amended: cancellation handling is symmetric in the two traversal
modes.  For either mode, if cancellation is observed before the subtree's
emissions are exhausted, the producer stops immediately — it has emitted
exactly the tasks that preceded the cancellation — and returns the
cancellation error; with enough budget the walk completes normally. -/
theorem c7_amended_cancellation_symmetric (pats : List (String → Bool))
    (recursive : Bool) (root : String) (tree : FsNode) (k : Nat) :
    ((specEmits pats recursive "." tree).length ≤ k →
      runProducer pats recursive root tree (some k) =
        (⟨(specEmits pats recursive "." tree).map (fun q => goJoin root q),
          specVisits recursive "." tree,
          some (k - (specEmits pats recursive "." tree).length)⟩, .ok)) ∧
    (k < (specEmits pats recursive "." tree).length →
      (runProducer pats recursive root tree (some k)).1.emitted =
        ((specEmits pats recursive "." tree).take k).map (fun q => goJoin root q) ∧
      (runProducer pats recursive root tree (some k)).2 = .canceled) := by
  have h := goWalkDir_budget_spec pats recursive root tree "." [] [] k
  constructor
  · intro hk
    have heq := h.1 hk
    unfold runProducer
    rw [heq]
    simp
  · intro hk
    have h2 := h.2 hk
    unfold runProducer
    rcases hres : goWalkDir (producerVisit pats recursive root) ⟨[], [], some k⟩ "." tree
      with ⟨s₁, sig₁⟩
    rw [hres] at h2
    have hsig : sig₁ = .canceled := h2.2
    subst hsig
    exact ⟨h2.1, rfl⟩

/-- Witness for amended C7: with budget one, the recursive walk over a
nested tree emits the first matching file, then aborts with the
cancellation error at the second. -/
theorem c7_amended_cancellation_witness :
    1 < (specEmits patsJpg true "." treeNested).length ∧
    (runProducer patsJpg true "/r" treeNested (some 1)).1.emitted = ["/r/a.jpg"] ∧
    (runProducer patsJpg true "/r" treeNested (some 1)).2 = .canceled := by
  have h := (c7_amended_cancellation_symmetric patsJpg true "/r" treeNested 1).2 (by decide)
  refine ⟨by decide, ?_, h.2⟩
  rw [h.1]
  decide

/-- C8: in flat mode the walk enters the root directory itself but no
subdirectory (the only directory visits are `.` and the immediate children,
whose subtrees are pruned), and emits exactly the matching regular files
that are immediate children of the root; in recursive mode it emits every
matching file at every depth. -/
theorem c8_flat_and_recursive_traversal (pats : List (String → Bool))
    (root rname : String) (children : List FsNode) (tree : FsNode)
    (hch : children.all (fun c => simpleName c.name) = true) :
    runProducer pats false root (.dir rname children) none =
      (⟨(children.filterMap (fun c => match c with
            | .file n => if matchesAny pats n then some n else none
            | .dir _ _ => none)).map (fun q => goJoin root q),
        (".", true) :: children.map (fun c => (c.name, c.isDir)), none⟩, .ok) ∧
    runProducer pats true root tree none =
      (⟨(allMatchingFiles pats "." tree).map (fun q => goJoin root q),
        specVisits true "." tree, none⟩, .ok) := by
  constructor
  · unfold runProducer
    rw [goWalkDir_none_spec pats false root (.dir rname children) "." [] []]
    have he : specEmits pats false "." (.dir rname children) =
        specEmitsList pats false "." children := by
      show (if "." = "." ∨ false = true then specEmitsList pats false "." children else []) = _
      rw [if_pos (Or.inl rfl)]
    have hv : specVisits false "." (.dir rname children) =
        (".", true) :: specVisitsList false "." children := by
      show ((".", true) :: (if "." = "." ∨ false = true
          then specVisitsList false "." children else [])) = _
      rw [if_pos (Or.inl rfl)]
    rw [he, hv, specEmitsList_flat pats children hch, specVisitsList_flat children hch]
    rfl
  · unfold runProducer
    rw [goWalkDir_none_spec pats true root tree "." [] []]
    rw [specEmits_recursive_eq]
    rfl

/-- Witness for C8 at a nested tree: flat mode emits only the matching
immediate child and visits only the root and its immediate entries;
recursive mode emits the matching file of the subdirectory as well. -/
theorem c8_flat_and_recursive_traversal_witness :
    ([FsNode.file "a.jpg", FsNode.dir "sub" [FsNode.file "b.jpg"]].all
      (fun c => simpleName c.name) = true) ∧
    (runProducer patsJpg false "/r"
        (FsNode.dir "r" [FsNode.file "a.jpg", FsNode.dir "sub" [FsNode.file "b.jpg"]])
        none).1.emitted = ["/r/a.jpg"] ∧
    (runProducer patsJpg false "/r"
        (FsNode.dir "r" [FsNode.file "a.jpg", FsNode.dir "sub" [FsNode.file "b.jpg"]])
        none).1.visited = [(".", true), ("a.jpg", false), ("sub", true)] ∧
    (runProducer patsJpg true "/r" treeNested none).1.emitted =
      ["/r/a.jpg", "/r/sub/b.jpg"] := by
  have h := c8_flat_and_recursive_traversal patsJpg "/r" "r"
    [FsNode.file "a.jpg", FsNode.dir "sub" [FsNode.file "b.jpg"]] treeNested (by decide)
  refine ⟨by decide, ?_, ?_, ?_⟩
  · rw [h.1]
    decide
  · rw [h.1]
    decide
  · rw [h.2]
    decide

/-- C9: a file whose base name matches at least one pattern is emitted
exactly once by the visit that processes it — the emission does not depend
on how many patterns match, and the patterns after the first matching one
are irrelevant; a base name matching no pattern is never emitted. -/
theorem c9_first_match_emits_once (pats : List (String → Bool)) (recursive : Bool)
    (root : String) (se : List String) (sv : List (String × Bool))
    (path name : String) :
    (matchesAny pats name = true →
      producerVisit pats recursive root ⟨se, sv, none⟩ path name false =
        (⟨se ++ [goJoin root path], sv ++ [(path, false)], none⟩, .ok)) ∧
    (matchesAny pats name = false →
      producerVisit pats recursive root ⟨se, sv, none⟩ path name false =
        (⟨se, sv ++ [(path, false)], none⟩, .ok)) ∧
    (∀ l₁ r l₂ l₂', (∀ r' ∈ l₁, r' name = false) → r name = true →
      producerVisit (l₁ ++ r :: l₂) recursive root ⟨se, sv, none⟩ path name false =
        producerVisit (l₁ ++ r :: l₂') recursive root ⟨se, sv, none⟩ path name false) := by
  have hfind : ∀ (l₁ : List (String → Bool)) r l₂, (∀ r' ∈ l₁, r' name = false) →
      r name = true → (l₁ ++ r :: l₂).find? (fun r' => r' name) = some r := by
    intro l₁ r l₂ hnone hr
    induction l₁ with
    | nil => simp [List.find?_cons, hr]
    | cons a l ih =>
      have ha : a name = false := hnone a (List.mem_cons_self _ _)
      simp only [List.cons_append, List.find?_cons, ha, cond_false]
      exact ih (fun r' hm => hnone r' (List.mem_cons_of_mem _ hm))
  refine ⟨?_, ?_, ?_⟩
  · intro hm
    cases hf : pats.find? (fun r => r name) with
    | none => rw [matchesAny_false_of_find?_none hf] at hm; cases hm
    | some r => simp [producerVisit, hf]
  · intro hm
    cases hf : pats.find? (fun r => r name) with
    | none => simp [producerVisit, hf]
    | some r => rw [matchesAny_true_of_find?_some hf] at hm; cases hm
  · intro l₁ r l₂ l₂' hnone hr
    simp [producerVisit, hfind l₁ r l₂ hnone hr, hfind l₁ r l₂' hnone hr]

/-- Witness for C9: a name matching both patterns is emitted once; a
non-matching name is not emitted; dropping everything after the first
matching pattern does not change the visit. -/
theorem c9_first_match_emits_once_witness :
    matchesAny [fun n => n == "a.jpg", fun n => n == "a.jpg" || n == "b.jpg"] "a.jpg" = true ∧
    producerVisit [fun n => n == "a.jpg", fun n => n == "a.jpg" || n == "b.jpg"] false "/r"
        ⟨[], [], none⟩ "a.jpg" "a.jpg" false =
      (⟨["/r/a.jpg"], [("a.jpg", false)], none⟩, .ok) ∧
    matchesAny [fun n => n == "a.jpg", fun n => n == "a.jpg" || n == "b.jpg"] "c.txt" = false ∧
    producerVisit [fun n => n == "a.jpg", fun n => n == "a.jpg" || n == "b.jpg"] false "/r"
        ⟨[], [], none⟩ "c.txt" "c.txt" false =
      (⟨[], [("c.txt", false)], none⟩, .ok) := by
  have h := c9_first_match_emits_once
    [fun n => n == "a.jpg", fun n => n == "a.jpg" || n == "b.jpg"] false "/r" [] [] "a.jpg" "a.jpg"
  have h2 := c9_first_match_emits_once
    [fun n => n == "a.jpg", fun n => n == "a.jpg" || n == "b.jpg"] false "/r" [] [] "c.txt" "c.txt"
  exact ⟨by decide, h.1 (by decide), by decide, h2.2.1 (by decide)⟩

end Jpegid
